import Mathlib

/-!
Verification of the runtime core of the kyute-async UI toolkit.

This file shallowly embeds the scheduling/ownership/dispatch core of the
repository and proves (or refutes) the specification claims about it:

* the broadcast `Handler` primitive (src/handler.rs),
* the intrusive element tree and its dirty flags (src/element.rs),
* hit testing and the pointer/keyboard dispatcher (src/element.rs, src/window.rs),
* the timer facility of the cooperative scheduler (src/application.rs).

Machine integers do not occur in the verified fragment; slab keys and waker
identities are modelled as natural numbers, geometric quantities as rationals.
Asynchronous code is modelled as explicit state machines: every `await`
boundary of the source becomes a step of a labelled transition function, so
that the temporal claims (barrier and timer behaviour) become statements about
traces of those step functions.
-/

namespace KyuteAsync

/-! ## Part 1: the broadcast handler (src/handler.rs)

A listener slot of the slab.  `waker` holds the identity of the stored waker
(`None` when the listener has never been polled), `notified` is the flag set
by `emit` before waking the listener. -/

structure Listener where
  notified : Bool
  waker : Option Nat
  deriving DecidableEq, Repr

/-- State of a `Handler<T>`: the slab of listeners (association list keyed by
slab index, keys pairwise distinct in well-formed states), the emitter waker,
the in-flight value, and the count of listeners that have been notified but
have not yet acknowledged (`ack_remaining`). -/
structure HandlerState (T : Type) where
  listeners : List (Nat × Listener)
  senderWaker : Option Nat
  value : Option T
  ackRemaining : Nat
  deriving DecidableEq, Repr

/-- Look up a slab slot in the listener list. -/
def lookupL : List (Nat × Listener) → Nat → Option Listener
  | [], _ => none
  | (k, l) :: rest, k0 => if k = k0 then some l else lookupL rest k0

/-- Update a slab slot in place. -/
def updateL (f : Listener → Listener) : List (Nat × Listener) → Nat → List (Nat × Listener)
  | [], _ => []
  | (k, l) :: rest, k0 => if k = k0 then (k, f l) :: rest else (k, l) :: updateL f rest k0

/-- Remove a slab slot (for the scope-guard cleanup in `wait`). -/
def removeL : List (Nat × Listener) → Nat → List (Nat × Listener)
  | [], _ => []
  | (k, l) :: rest, k0 => if k = k0 then removeL rest k0 else (k, l) :: removeL rest k0

/-- A key strictly larger than every key in use; stands for the vacant slab
slot picked by `Slab::insert` (the concrete numeric choice is irrelevant, only
freshness matters). -/
def freshKey (ls : List (Nat × Listener)) : Nat :=
  (ls.map Prod.fst).foldr max 0 + 1

/-- The body of `Handler::emit` that runs once the first `ready().await` has
passed: if there are no listeners, return unchanged; otherwise store the value,
mark every listener that has a stored waker as notified (taking its waker to
wake it), and set `ack_remaining` to the number of listeners so woken. -/
def emitBody {T : Type} (s : HandlerState T) (v : T) : HandlerState T :=
  if s.listeners.isEmpty then s
  else
    { s with
      value := some v
      listeners := s.listeners.map fun kl =>
        match kl.2.waker with
        | some _ => (kl.1, { kl.2 with notified := true, waker := none })
        | none => kl
      ackRemaining := (s.listeners.filter fun kl => kl.2.waker.isSome).length }

/-- The poll of `Handler::ready`: ready exactly when `ack_remaining` is zero
(on the pending path the sender waker is stored, which does not matter for the
state claims below and is kept for faithfulness). -/
def readyPoll {T : Type} (s : HandlerState T) (w : Nat) : HandlerState T × Bool :=
  if s.ackRemaining = 0 then (s, true)
  else ({ s with senderWaker := some w }, false)

/-- `Handler::ack`: decrement `ack_remaining` and, when it reaches zero, take
and wake the sender waker. -/
def ackStep {T : Type} (s : HandlerState T) : HandlerState T :=
  let s1 : HandlerState T := { s with ackRemaining := s.ackRemaining - 1 }
  if s1.ackRemaining = 0 then { s1 with senderWaker := none } else s1

/-- The registration performed at the start of `Handler::wait`: insert a fresh
listener slot, not yet notified and with no waker. -/
def waitRegister {T : Type} (s : HandlerState T) : HandlerState T × Nat :=
  let k := freshKey s.listeners
  ({ s with listeners := s.listeners ++ [(k, ⟨false, none⟩)] }, k)

/-- One poll of the future returned by `Handler::wait` for slot `slot` with
current waker `w`.  Returns the new state and `some observation` when the poll
returned ready (the observation is the cloned value slot), `none` when it
returned pending after storing the waker. -/
def waitPoll {T : Type} (s : HandlerState T) (slot w : Nat) :
    HandlerState T × Option (Option T) :=
  match lookupL s.listeners slot with
  | none => (s, none)
  | some l =>
    if l.notified then
      let s1 : HandlerState T :=
        { s with listeners := updateL (fun l0 => { l0 with notified := false }) s.listeners slot }
      let s2 := ackStep s1
      (s2, some s2.value)
    else
      ({ s with listeners := updateL (fun l0 => { l0 with waker := some w }) s.listeners slot },
        none)

/-- The scope-guard cleanup that runs when a `wait` future is dropped: if the
slot had been notified but not yet observed, acknowledge on its behalf, then
remove the slot. -/
def waitDrop {T : Type} (s : HandlerState T) (slot : Nat) : HandlerState T :=
  match lookupL s.listeners slot with
  | none => s
  | some l =>
    let s1 := if l.notified then ackStep s else s
    { s1 with listeners := removeL s1.listeners slot }

/-- Labels for the interleaved execution of one emitter and many listener
tasks on the single-threaded executor.  Each label is one atomic section of
the source between suspension points. -/
inductive HLabel (T : Type) where
  | emitStart (v : T)
  | register
  | poll (slot w : Nat)
  | drop (slot : Nat)
  deriving DecidableEq, Repr

/-- One scheduler step of the handler protocol.  `emitStart` is guarded by the
first `ready().await` of `emit` (it can only run when no acknowledgement is
outstanding); `poll` and `drop` are guarded by the slot existing (an alive
`wait` future always has its slot in the slab). -/
def hstep {T : Type} (s : HandlerState T) : HLabel T → Option (HandlerState T)
  | .emitStart v => if s.ackRemaining = 0 then some (emitBody s v) else none
  | .register => some (waitRegister s).1
  | .poll slot w => if (lookupL s.listeners slot).isSome then some (waitPoll s slot w).1 else none
  | .drop slot => if (lookupL s.listeners slot).isSome then some (waitDrop s slot) else none

/-- Run a list of labels from a state; `none` when some step was not enabled. -/
def execTrace {T : Type} (s : HandlerState T) : List (HLabel T) → Option (HandlerState T)
  | [] => some s
  | a :: tr =>
    match hstep s a with
    | some s1 => execTrace s1 tr
    | none => none

/-- Whether slot `slot` is currently marked notified. -/
def notifiedIn {T : Type} (s : HandlerState T) (slot : Nat) : Bool :=
  ((lookupL s.listeners slot).map Listener.notified).getD false

/-- A step that settles slot `slot` for the emission of `v`: either the
listener was polled while notified (its poll then returns ready with a clone
of `v`), or its future was dropped while notified (the scope guard fires the
acknowledgement). -/
def Settles {T : Type} [DecidableEq T] (v : T) (slot : Nat) :
    HLabel T → HandlerState T → Bool
  | .poll sl _, s => sl == slot && notifiedIn s slot && s.value == some v
  | .drop sl, s => sl == slot && notifiedIn s slot
  | _, _ => false

/-- Slot `slot` is settled for value `v` somewhere along trace `tr` from `s`. -/
def SettledIn {T : Type} [DecidableEq T] (v : T) (slot : Nat) :
    HandlerState T → List (HLabel T) → Bool
  | _, [] => false
  | s, a :: tr =>
    Settles v slot a s ||
      match hstep s a with
      | some s1 => SettledIn v slot s1 tr
      | none => false

/-- Well-formedness of a handler state: slab keys are pairwise distinct and
the acknowledgement counter counts exactly the listeners currently marked
notified. -/
def HWF {T : Type} (s : HandlerState T) : Prop :=
  (s.listeners.map Prod.fst).Nodup ∧
    s.ackRemaining = (s.listeners.filter fun kl => kl.2.notified).length

instance {T : Type} (s : HandlerState T) : Decidable (HWF s) := by
  unfold HWF; infer_instance

/-! ## Part 2: the element tree (src/element.rs)

Nodes live behind reference counting in the source; here every possible node
is a natural-number identity and the heap is a total map from identities to
node records.  Weak references never dangle in the scenarios of the claims
(no node is destroyed during the considered operation sequences), so a weak
upgrade is simply a map lookup.  The layout `Geometry` type is declared in the
missing module src/layout/mod.rs; following the spec it carries the computed
size, which is all the generic algorithms consult, and is modelled here by
the two rational fields `gw`/`gh`. -/

structure ENode where
  prev : Option Nat
  next : Option Nat
  firstChild : Option Nat
  lastChild : Option Nat
  parent : Option Nat
  needsLayout : Bool
  needsPaint : Bool
  gw : ℚ
  gh : ℚ
  deriving DecidableEq, Repr

/-- A freshly created element: fully detached, with the LAYOUT and PAINT dirty
flags set as in Element::new. -/
def ENode.fresh : ENode :=
  ⟨none, none, none, none, none, true, true, 0, 0⟩

/-- The mutable state shared by the tree operations: the node heap and the
single observable effect of request_repaint on the owning window. -/
structure TreeState where
  nodes : Nat → ENode
  repaintRequested : Bool

/-- The state in which every element has just been created and none attached. -/
def initTree : TreeState :=
  ⟨fun _ => ENode.fresh, false⟩

/-- Point update of a single node record. -/
def updNode (t : TreeState) (n : Nat) (f : ENode → ENode) : TreeState :=
  { t with nodes := fun m => if m = n then f (t.nodes m) else t.nodes m }

def setPrev (t : TreeState) (n : Nat) (v : Option Nat) : TreeState :=
  updNode t n fun e => { e with prev := v }

def setNext (t : TreeState) (n : Nat) (v : Option Nat) : TreeState :=
  updNode t n fun e => { e with next := v }

def setFirstChild (t : TreeState) (n : Nat) (v : Option Nat) : TreeState :=
  updNode t n fun e => { e with firstChild := v }

def setLastChild (t : TreeState) (n : Nat) (v : Option Nat) : TreeState :=
  updNode t n fun e => { e with lastChild := v }

def setParent (t : TreeState) (n : Nat) (v : Option Nat) : TreeState :=
  updNode t n fun e => { e with parent := v }

/-- Element::set_dirty_flags.  The source recursion climbs the parent chain
unconditionally; `fuel` bounds that climb so the model is total (every claim
about marking supplies enough fuel for the actual ancestor chain).  The flag
argument pair is (LAYOUT, PAINT); the node ORs the argument into its own
flags and passes the merged flags to its parent, and requests a repaint from
the owning window whenever the merged flags contain PAINT. -/
def setDirtyFlags : Nat → TreeState → Nat → Bool → Bool → TreeState
  | 0, t, _, _, _ => t
  | fuel + 1, t, n, layout, paint =>
    let layout1 := (t.nodes n).needsLayout || layout
    let paint1 := (t.nodes n).needsPaint || paint
    let t1 := updNode t n fun e => { e with needsLayout := layout1, needsPaint := paint1 }
    let t2 :=
      match (t1.nodes n).parent with
      | some p => setDirtyFlags fuel t1 p layout1 paint1
      | none => t1
    if paint1 then { t2 with repaintRequested := true } else t2

/-- Element::mark_needs_relayout sets LAYOUT and PAINT. -/
def markNeedsRelayout (fuel : Nat) (t : TreeState) (n : Nat) : TreeState :=
  setDirtyFlags fuel t n true true

/-- Element::mark_needs_repaint sets PAINT only. -/
def markNeedsRepaint (fuel : Nat) (t : TreeState) (n : Nat) : TreeState :=
  setDirtyFlags fuel t n false true

/-- Element::mark_layout_done. -/
def markLayoutDone (t : TreeState) (n : Nat) : TreeState :=
  updNode t n fun e => { e with needsLayout := false }

/-- Element::mark_paint_done. -/
def markPaintDone (t : TreeState) (n : Nat) : TreeState :=
  updNode t n fun e => { e with needsPaint := false }

/-- Element::detach, following the exact statement order of the source: splice
prev/next (falling back to the parent's first/last-child pointers at the chain
ends), clear the own prev/next pointers, mark the old parent needs-relayout,
and finally clear the parent pointer. -/
def detach (fuel : Nat) (n : Nat) (t : TreeState) : TreeState :=
  let t1 :=
    match (t.nodes n).prev with
    | some p => setNext t p (t.nodes n).next
    | none =>
      match (t.nodes n).parent with
      | some q => setFirstChild t q (t.nodes n).next
      | none => t
  let t2 :=
    match (t1.nodes n).next with
    | some m => setPrev t1 m (t1.nodes n).prev
    | none =>
      match (t1.nodes n).parent with
      | some q => setLastChild t1 q (t1.nodes n).prev
      | none => t1
  let t3 := setPrev t2 n none
  let t4 := setNext t3 n none
  let t5 :=
    match (t4.nodes n).parent with
    | some q => markNeedsRelayout fuel t4 q
    | none => t4
  setParent t5 n none

/-- Element::insert_after: detach the inserted element, then link it between
`s` and the old successor of `s` (updating the parent's last-child pointer
when `s` was last), inherit the parent of `s`, and mark that parent
needs-relayout. -/
def insertAfter (fuel : Nat) (s x : Nat) (t : TreeState) : TreeState :=
  let t0 := detach fuel x t
  let t1 := setPrev t0 x (some s)
  let t2 := setNext t1 x ((t1.nodes s).next)
  let t3 :=
    match (t2.nodes s).next with
    | some m => setPrev t2 m (some x)
    | none =>
      match (t2.nodes s).parent with
      | some p => setLastChild t2 p (some x)
      | none => t2
  let t4 := setNext t3 s (some x)
  let t5 := setParent t4 x ((t4.nodes s).parent)
  match (t5.nodes s).parent with
  | some p => markNeedsRelayout fuel t5 p
  | none => t5

/-- Element::add_child: detach the child, splice it at the end of the child
list of `p`, set its parent, and mark `p` needs-relayout. -/
def addChild (fuel : Nat) (p c : Nat) (t : TreeState) : TreeState :=
  let t0 := detach fuel c t
  let t1 := setPrev t0 c ((t0.nodes p).lastChild)
  let t2 := setNext t1 c none
  let t3 :=
    match (t2.nodes p).lastChild with
    | some lc => setNext t2 lc (some c)
    | none => setFirstChild t2 p (some c)
  let t4 := setLastChild t3 p (some c)
  let t5 := setParent t4 c (some p)
  markNeedsRelayout fuel t5 p

/-- The tree-mutation operations the spec quantifies over. -/
inductive TreeOp where
  | detach (n : Nat)
  | insertAfter (s x : Nat)
  | addChild (p c : Nat)
  deriving DecidableEq, Repr

def applyOp (fuel : Nat) (t : TreeState) : TreeOp → TreeState
  | .detach n => detach fuel n t
  | .insertAfter s x => insertAfter fuel s x t
  | .addChild p c => addChild fuel p c t

def applyOps (fuel : Nat) : List TreeOp → TreeState → TreeState
  | [], t => t
  | op :: ops, t => applyOps fuel ops (applyOp fuel t op)

/-- Walking a sibling chain forward along next pointers (the iteration of
SiblingIter from a first-child pointer); `none` when the fuel runs out before
the chain ends. -/
def walkNext (t : TreeState) : Nat → Option Nat → Option (List Nat)
  | _, none => some []
  | 0, some _ => none
  | fuel + 1, some x => (walkNext t fuel (t.nodes x).next).map (x :: ·)

/-- Walking a sibling chain backward along prev pointers from a last-child
pointer. -/
def walkPrev (t : TreeState) : Nat → Option Nat → Option (List Nat)
  | _, none => some []
  | 0, some _ => none
  | fuel + 1, some x => (walkPrev t fuel (t.nodes x).prev).map (x :: ·)

/-- The strict ancestor chain of a node, innermost parent first, as walked by
Element::window_transform and Element::ancestors_and_self; `none` when the fuel
runs out (a cyclic parent chain). -/
def parentWalk (t : TreeState) : Nat → Nat → Option (List Nat)
  | fuel, n =>
    match (t.nodes n).parent with
    | none => some []
    | some p =>
      match fuel with
      | 0 => none
      | fuel + 1 => (parentWalk t fuel p).map (p :: ·)

/-- Element::ancestors_and_self: ancestors sorted from the root, then the node
itself. -/
def ancestorsAndSelf (t : TreeState) (fuel : Nat) (n : Nat) : Option (List Nat) :=
  (parentWalk t fuel n).map (fun ancs => ancs.reverse ++ [n])

/-! Representation predicate for sibling chains. -/

/-- The head of a list as a pointer value, falling through to `nx` for the
empty list. -/
def headOr (nx : Option Nat) : List Nat → Option Nat
  | [] => nx
  | x :: _ => some x

/-- The last element of a list as a pointer value, falling through to `pr`
for the empty list. -/
def lastOr (pr : Option Nat) : List Nat → Option Nat
  | [] => pr
  | x :: xs => lastOr (some x) xs

/-- `ChainSeg t p pr nx l` states that the nodes of `l` form a doubly linked
segment inside state `t`: consecutive nodes are linked by matching prev/next
pointers, the first element's prev pointer is `pr`, the last element's next
pointer is `nx`, and every element's parent pointer is `p`. -/
def ChainSeg (t : TreeState) (p : Option Nat) : Option Nat → Option Nat → List Nat → Prop
  | _, _, [] => True
  | pr, nx, x :: xs =>
    (t.nodes x).prev = pr ∧ (t.nodes x).parent = p ∧ (t.nodes x).next = headOr nx xs ∧
      ChainSeg t p (some x) nx xs

/-- The child list `l` of parent `p` is anchored by the first/last-child
pointers of `p`, duplicate free, and correctly linked with no dangling ends. -/
def GoodParent (t : TreeState) (p : Nat) (l : List Nat) : Prop :=
  (t.nodes p).firstChild = headOr none l ∧ (t.nodes p).lastChild = lastOr none l ∧
    l.Nodup ∧ ChainSeg t (some p) none none l

/-- The tuple of the five link fields of a node, used to state that an
operation leaves the link structure of a node untouched. -/
def linksOf (e : ENode) : Option Nat × Option Nat × Option Nat × Option Nat × Option Nat :=
  (e.prev, e.next, e.firstChild, e.lastChild, e.parent)

/-- The three fields a sibling chain consists of. -/
def chainLinks (e : ENode) : Option Nat × Option Nat × Option Nat :=
  (e.prev, e.next, e.parent)

/-- The global structural invariant of the element tree:
prev and next pointers are converse partial maps, and every node has a unique
well-linked child list that contains exactly the nodes whose parent pointer
designates it. -/
structure TreeInv (t : TreeState) : Prop where
  conv : ∀ x y, (t.nodes x).next = some y ↔ (t.nodes y).prev = some x
  child : ∀ p, ∃ l, GoodParent t p l ∧ ∀ x, (t.nodes x).parent = some p → x ∈ l

/-! ## Part 3: geometry and hit testing (src/element.rs, kurbo)

The source stores a kurbo affine transform per element (local to parent
coordinates).  kurbo represents an affine map by six coefficients; the map
sends (x, y) to (a x + c y + e, b x + d y + f).  Coefficients are rationals
here rather than IEEE doubles; the claims under test concern which transform
is applied, not rounding. -/

structure Aff where
  a : ℚ
  b : ℚ
  c : ℚ
  d : ℚ
  e : ℚ
  f : ℚ
  deriving DecidableEq, Repr

def Aff.id : Aff := ⟨1, 0, 0, 1, 0, 0⟩

def Aff.translate (tx ty : ℚ) : Aff := ⟨1, 0, 0, 1, tx, ty⟩

/-- Composition, with the kurbo convention: (mul g h) acts as h then g. -/
def Aff.mul (g h : Aff) : Aff :=
  ⟨g.a * h.a + g.c * h.b,
   g.b * h.a + g.d * h.b,
   g.a * h.c + g.c * h.d,
   g.b * h.c + g.d * h.d,
   g.a * h.e + g.c * h.f + g.e,
   g.b * h.e + g.d * h.f + g.f⟩

/-- kurbo Affine::inverse (rational field inverse in place of floating-point
reciprocal; none of the claims applies it to a singular transform). -/
def Aff.inv (g : Aff) : Aff :=
  let r := (g.a * g.d - g.b * g.c)⁻¹
  ⟨g.d * r, -g.b * r, -g.c * r, g.a * r,
   (g.c * g.f - g.d * g.e) * r, (g.b * g.e - g.a * g.f) * r⟩

def Aff.apply (g : Aff) (p : ℚ × ℚ) : ℚ × ℚ :=
  (g.a * p.1 + g.c * p.2 + g.e, g.b * p.1 + g.d * p.2 + g.f)

/-- A node of the visual tree as the recursive hit-test and dispatch
algorithms see it: its identity, its transform (local to parent), the size of
its last computed geometry, and its children outermost-to-innermost.  The
default Visual::hit_test consults exactly geometry.size, so the size is the
whole geometric state needed. -/
inductive VNode where
  | node (id : Nat) (transform : Aff) (w h : ℚ) (children : List VNode)

def VNode.id : VNode → Nat
  | .node i _ _ _ _ => i

def VNode.transform : VNode → Aff
  | .node _ tr _ _ _ => tr

def VNode.children : VNode → List VNode
  | .node _ _ _ _ cs => cs

/-- The default Visual::hit_test: whether the rectangle from the origin to the
geometry size contains the point (kurbo Rect::contains is inclusive at the
minimum edge and exclusive at the maximum edge). -/
def VNode.ownHit : VNode → ℚ × ℚ → Bool
  | .node _ _ w h _, p => decide (0 ≤ p.1 ∧ p.1 < w ∧ 0 ≤ p.2 ∧ p.2 < h)

mutual

/-- The helper hit_test_rec of do_hit_test: test the node itself (appending it
to the path when hit), then scan the children, stopping at the first child
whose subtree is hit.  The point handed to a child is the inverse of the
accumulated transform (the transform parameter composed with the child
transform) applied to the local point, exactly as in the source. -/
def hitTestRec (v : VNode) (point : ℚ × ℚ) (transform : Aff) (res : List Nat) :
    Bool × List Nat :=
  match v with
  | .node i _ _ _ cs =>
    let hit0 := v.ownHit point
    let res0 := if hit0 then res ++ [i] else res
    hitTestChildren cs point transform hit0 res0

def hitTestChildren (cs : List VNode) (point : ℚ × ℚ) (transform : Aff)
    (hit : Bool) (res : List Nat) : Bool × List Nat :=
  match cs with
  | [] => (hit, res)
  | c :: rest =>
    let tr := transform.mul c.transform
    let lp := tr.inv.apply point
    let r1 := hitTestRec c lp tr res
    if r1.1 then (true, r1.2)
    else hitTestChildren rest point transform hit r1.2

end

/-- do_hit_test: run hit_test_rec from this visual with the initial
accumulated transform being the visual's own transform, returning the path of
hit nodes from outermost to innermost. -/
def doHitTest (v : VNode) (point : ℚ × ℚ) : List Nat :=
  (hitTestRec v point v.transform []).2

mutual

/-- Modelled from the spec: the hit-test recursion as the specification words
it, for comparison with the source algorithm above.  A node is hit if its own
bounds contain the point or if recursively any child is hit, with the point
transformed into child-local coordinates via the child's own inverse
transform; the scan stops at the first hit child as in the source. -/
def specHitRec (v : VNode) (point : ℚ × ℚ) (res : List Nat) : Bool × List Nat :=
  match v with
  | .node i _ _ _ cs =>
    let hit0 := v.ownHit point
    let res0 := if hit0 then res ++ [i] else res
    specHitChildren cs point hit0 res0

def specHitChildren (cs : List VNode) (point : ℚ × ℚ) (hit : Bool) (res : List Nat) :
    Bool × List Nat :=
  match cs with
  | [] => (hit, res)
  | c :: rest =>
    let lp := c.transform.inv.apply point
    let r1 := specHitRec c lp res
    if r1.1 then (true, r1.2)
    else specHitChildren rest point hit r1.2

end

/-- Modelled from the spec: the hit-test path as described by the
specification sentence, outermost to innermost. -/
def specHitTest (v : VNode) (point : ℚ × ℚ) : List Nat :=
  (specHitRec v point []).2

mutual

/-- Whether a node with identity `i` occurs in a tree. -/
def VNode.contains : VNode → Nat → Bool
  | .node j _ _ _ cs, i => j == i || VNode.containsList cs i

/-- Membership scan over a child list. -/
def VNode.containsList : List VNode → Nat → Bool
  | [], _ => false
  | c :: rest, i => VNode.contains c i || VNode.containsList rest i

end

mutual

/-- The root-to-target identity path of a node in the tree: this is what
Element::ancestors_and_self yields for a target attached below this root
(ancestors sorted from the root, then the target itself). -/
def VNode.pathTo : VNode → Nat → Option (List Nat)
  | .node j _ _ _ cs, i =>
    if j = i then some [j]
    else (VNode.pathToList cs i).map (j :: ·)

/-- First child subtree containing the target wins, as with pointer-identity
lookup in the source. -/
def VNode.pathToList : List VNode → Nat → Option (List Nat)
  | [], _ => none
  | c :: rest, i =>
    match VNode.pathTo c i with
    | some p => some p
    | none => VNode.pathToList rest i

end

/-! ## Part 4: the window dispatcher (src/window.rs)

The Event payload type lives in the missing module src/event.rs; the
dispatcher only ever chooses targets and bubbling mode, so events are
modelled by their constructor kind (the fields of the PointerEvent payload
built in dispatch_pointer_event do not influence routing). -/

inductive EventKind where
  | pointerMove
  | pointerDown
  | pointerUp
  | pointerOver
  | pointerOut
  | pointerEnter
  | pointerLeave
  deriving DecidableEq, Repr

/-- One call to WindowInner::dispatch_event: the event kind, the target
visual, and whether the event bubbles. -/
structure DispatchCall where
  kind : EventKind
  target : Nat
  bubbling : Bool
  deriving DecidableEq, Repr

/-- WindowInner::dispatch_event.  The dispatch chain is
target.ancestors_and_self(); the source then asserts that the chain starts at
the window root and panics otherwise, which for a target below the root
happens exactly when the target is no longer in the root's tree.  On success
the returned list is the sequence of visuals whose handlers run: the whole
chain from the target up to the root for a bubbling event, the target alone
otherwise.  (The per-visual transform bookkeeping of the source is dropped:
it alters only the event payload, never the routing.) -/
def dispatchEvent (root : VNode) (target : Nat) (bubbling : Bool) :
    Except String (List Nat) :=
  match root.pathTo target with
  | some chain => .ok (if bubbling then chain.reverse else [target])
  | none => .error "target must be a descendant of the root visual"

/-- Sorted insertion for the BTreeSet model (sets of visuals ordered by
pointer identity, modelled by the identity number). -/
def setInsert (x : Nat) : List Nat → List Nat
  | [] => [x]
  | y :: ys => if x < y then x :: y :: ys else if x = y then y :: ys else y :: setInsert x ys

/-- BTreeSet::from_iter. -/
def toSet (l : List Nat) : List Nat := l.foldl (fun acc x => setInsert x acc) []

/-- BTreeSet::difference, in ascending order. -/
def setDiff (a b : List Nat) : List Nat := a.filter (fun x => decide (x ∉ b))

/-- The per-window input state (WindowInner::input_state).  Modifier state is
an opaque number; the button set, the last-click record and the focus are as
in the source. -/
structure LastClick where
  deviceId : Nat
  button : Nat
  position : ℚ × ℚ
  time : Nat
  repeatCount : Nat
  deriving DecidableEq, Repr

structure InputState where
  modifiers : Nat
  buttons : List Nat
  lastClick : Option LastClick
  pointerGrab : Option Nat
  focus : Option Nat
  lastInnermostHit : Option Nat
  lastHits : List Nat
  deriving DecidableEq, Repr

/-- WindowInner::dispatch_pointer_event: hit-test from the root, choose the
target (the pointer grab, taken, else the innermost hit), deliver the primary
event with bubbling, then derive the enter/leave/over/out transitions from the
previous hit set and previous innermost hit.  The result is the new input
state and the list of dispatch_event calls in source order; a failing
dispatch_event assert aborts the whole dispatch (a panic). -/
def dispatchPointerEvent (ist : InputState) (root : VNode) (kind : EventKind)
    (hitPosition : ℚ × ℚ) : Except String (InputState × List DispatchCall) := do
  let hits := doHitTest root hitPosition
  let innermostHit := hits.getLast?
  let target := ist.pointerGrab.or innermostHit
  let calls0 ←
    match target with
    | some tg => do
      let _ ← dispatchEvent root tg true
      pure [DispatchCall.mk kind tg true]
    | none => pure []
  let hitsSet := toSet hits
  let hitChanged := decide (ist.lastInnermostHit ≠ innermostHit)
  let calls1 ←
    match hitChanged, ist.lastInnermostHit with
    | true, some out => do
      let _ ← dispatchEvent root out true
      pure [DispatchCall.mk .pointerOut out true]
    | _, _ => pure []
  let leaving := setDiff ist.lastHits hitsSet
  let calls2 ←
    leaving.mapM fun v => do
      let _ ← dispatchEvent root v false
      pure (DispatchCall.mk .pointerLeave v false)
  let calls3 ←
    match hitChanged, innermostHit with
    | true, some over => do
      let _ ← dispatchEvent root over true
      pure [DispatchCall.mk .pointerOver over true]
    | _, _ => pure []
  let entering := setDiff hitsSet ist.lastHits
  let calls4 ←
    entering.mapM fun v => do
      let _ ← dispatchEvent root v false
      pure (DispatchCall.mk .pointerEnter v false)
  pure
    ({ ist with pointerGrab := none, lastHits := hitsSet, lastInnermostHit := innermostHit },
      calls0 ++ calls1 ++ calls2 ++ calls3 ++ calls4)

/-- The state of WindowInner that dispatch_winit_input_event reads and
writes.  The visual tree is the window root; lastKbEvent is the debugging
slot the keyboard arm stores into (keyboard payloads are opaque numbers,
their content is never inspected). -/
structure WindowState where
  root : VNode
  cursorPos : ℚ × ℚ
  inputState : InputState
  lastKbEvent : Option Nat
  redrawRequested : Bool

/-- The winit window events relevant to input dispatch.  CloseRequested,
Resized and Focused only emit on the window's broadcast handlers (the subject
of Part 1) and RedrawRequested repaints; none of them routes an event to a
visual, and they are folded into the catch-all `other` arm here. -/
inductive WinEvent where
  | cursorMoved (pos : ℚ × ℚ)
  | keyboardInput (key : Nat)
  | mouseInput (deviceId : Nat) (button : Option Nat) (pressed : Bool)
  | touch (pos : ℚ × ℚ)
  | other
  deriving DecidableEq, Repr

/-- WindowInner::convert_mouse_input: update the tracked button state,
compute the click repeat count from the last-click record (same device, same
button, same position, within the platform double-click time), and build the
pointer down/up event.  `button` is `none` for an extended button, which the
source ignores.  `now` stands for Instant::now() and `dct` for
AppGlobals::double_click_time(). -/
def convertMouseInput (ist : InputState) (cursorPos : ℚ × ℚ) (now dct : Nat)
    (deviceId : Nat) (button : Option Nat) (pressed : Bool) :
    InputState × Option EventKind :=
  match button with
  | none => (ist, none)
  | some b =>
    let buttons :=
      if pressed then setInsert b ist.buttons else ist.buttons.filter (fun x => decide (x ≠ b))
    let ist1 := { ist with buttons := buttons }
    let matches0 :=
      match ist1.lastClick with
      | some last =>
        decide (last.deviceId = deviceId) && decide (last.button = b) &&
          decide (last.position = cursorPos) && decide (now - last.time < dct)
      | none => false
    let ist2 :=
      if matches0 then
        if pressed then
          { ist1 with lastClick := ist1.lastClick.map fun last =>
              { last with repeatCount := last.repeatCount + 1 } }
        else ist1
      else
        if pressed then
          { ist1 with lastClick := some ⟨deviceId, b, cursorPos, now, 1⟩ }
        else { ist1 with lastClick := none }
    (ist2, some (if pressed then EventKind.pointerDown else EventKind.pointerUp))

/-- WindowInner::dispatch_winit_input_event for a window without an active
popup (the popup path forwards the unchanged event to the popup window's
identical handler).  Cursor moves update the cursor position and run the
pointer dispatch; mouse input converts and runs the pointer dispatch; touch
updates the cursor; keyboard input stores the event for the debug overlay and
requests a redraw, dispatching to no visual. -/
def dispatchWinitInputEvent (w : WindowState) (now dct : Nat) (ev : WinEvent) :
    Except String (WindowState × List DispatchCall) :=
  match ev with
  | .cursorMoved pos => do
    let w1 := { w with cursorPos := pos }
    let (ist, calls) ← dispatchPointerEvent w1.inputState w1.root .pointerMove pos
    pure ({ w1 with inputState := ist, redrawRequested := true }, calls)
  | .keyboardInput key =>
    .ok ({ w with lastKbEvent := some key, redrawRequested := true }, [])
  | .mouseInput deviceId button pressed => do
    let (ist1, kind?) := convertMouseInput w.inputState w.cursorPos now dct deviceId button pressed
    match kind? with
    | some kind => do
      let (ist2, calls) ← dispatchPointerEvent ist1 w.root kind w.cursorPos
      pure ({ w with inputState := ist2 }, calls)
    | none => pure ({ w with inputState := ist1 }, [])
  | .touch pos =>
    .ok ({ w with cursorPos := pos, redrawRequested := true }, [])
  | .other => .ok (w, [])

/-! ## Part 5: the layout and paint passes (src/element.rs)

Both passes run over the linked tree of Part 2.  Child lists are read through
the sibling iterator; `fuel` bounds the recursion as before.  Only the default
Visual::layout is in scope (concrete containers override the arithmetic but
must keep the same flag discipline). -/

mutual

/-- Visual::do_layout with the default Visual::layout: collect the children,
lay each out in order against the same constraints (the default
implementation never inspects the constraints), take the union of the child
sizes as the own geometry, store it, and mark layout done on this node. -/
def doLayout : Nat → TreeState → Nat → TreeState
  | 0, t, _ => t
  | fuel + 1, t, n =>
    let children := (walkNext t fuel (t.nodes n).firstChild).getD []
    let r := layoutFold fuel t children 0 0
    markLayoutDone (updNode r.1 n fun e => { e with gw := r.2.1, gh := r.2.2 }) n
  termination_by fuel _ _ => (fuel, 0)

/-- The child loop of the default Visual::layout, accumulating the running
union of the child sizes. -/
def layoutFold : Nat → TreeState → List Nat → ℚ → ℚ → TreeState × (ℚ × ℚ)
  | _, t, [], aw, ah => (t, (aw, ah))
  | fuel, t, c :: rest, aw, ah =>
    let t1 := doLayout fuel t c
    layoutFold fuel t1 rest (max aw (t1.nodes c).gw) (max ah (t1.nodes c).gh)
  termination_by fuel _ cs _ _ => (fuel, cs.length + 1)

end

/-- The child loop of paint_rec inside do_paint: for each child (the sibling
iterator reads the next pointer before the body runs), recurse into the
child's children, then mark paint done on the child.  Painting itself touches
no dirty state. -/
def paintChildren : Nat → TreeState → Option Nat → TreeState
  | _, t, none => t
  | 0, t, some _ => t
  | fuel + 1, t, some c =>
    let nxt := (t.nodes c).next
    let t1 := paintChildren fuel t (t.nodes c).firstChild
    let t2 := markPaintDone t1 c
    paintChildren fuel t2 nxt

/-- Visual::do_paint: paint_rec from this visual.  The visual itself is
painted and its children recursively handled, but mark_paint_done is only
ever called on children inside the loop, never on the visual the pass was
started on. -/
def doPaint (fuel : Nat) (t : TreeState) (n : Nat) : TreeState :=
  paintChildren fuel t (t.nodes n).firstChild

mutual

/-- The nodes visited by doLayout, in visit order, mirroring its recursion
(each sibling is visited in the state produced by laying out the previous
ones). -/
def layoutVisits : Nat → TreeState → Nat → List Nat
  | 0, _, _ => []
  | fuel + 1, t, n =>
    let children := (walkNext t fuel (t.nodes n).firstChild).getD []
    n :: layoutVisitsFold fuel t children
  termination_by fuel _ _ => (fuel, 0)

def layoutVisitsFold : Nat → TreeState → List Nat → List Nat
  | _, _, [] => []
  | fuel, t, c :: rest => layoutVisits fuel t c ++ layoutVisitsFold fuel (doLayout fuel t c) rest
  termination_by fuel _ cs => (fuel, cs.length + 1)

end

/-- The nodes on which paintChildren calls mark_paint_done, in call order. -/
def paintVisits : Nat → TreeState → Option Nat → List Nat
  | _, _, none => []
  | 0, _, some _ => []
  | fuel + 1, t, some c =>
    let nxt := (t.nodes c).next
    let t1 := paintChildren fuel t (t.nodes c).firstChild
    let t2 := markPaintDone t1 c
    (paintVisits fuel t (t.nodes c).firstChild ++ [c]) ++ paintVisits fuel t2 nxt

/-! ## Part 6: scheduler timers (src/application.rs)

Wall-clock instants are natural numbers.  A pending timer pairs the waker of
the waiting task with its deadline; the scheduler keeps the timer list sorted
by deadline (it sorts at the end of every event-loop iteration, after all
pushes of that iteration). -/

structure MTimer where
  waker : Nat
  deadline : Nat
  deriving DecidableEq, Repr

/-- The timer-firing loop run on every event-loop wakeup (the NewEvents arm
of `run`): repeatedly remove and wake the front timer while its deadline has
passed, stopping at the first still-future deadline.  Returns the remaining
timers and the woken wakers in firing order. -/
def fireTimers (now : Nat) : List MTimer → List MTimer × List Nat
  | [] => ([], [])
  | tm :: rest =>
    if tm.deadline ≤ now then
      let r := fireTimers now rest
      (r.1, tm.waker :: r.2)
    else (tm :: rest, [])

/-- The end-of-iteration sort (timers.sort_by_key on the deadline). -/
def sortTimers (l : List MTimer) : List MTimer :=
  l.mergeSort (fun a b => a.deadline ≤ b.deadline)

/-- The control flow handed back to the OS loop after draining: wait until
the earliest pending deadline, or wait indefinitely when no timer is
pending. -/
def nextWake (l : List MTimer) : Option Nat :=
  ((sortTimers l).head?).map MTimer.deadline

inductive PollOutcome where
  | ready
  | pending
  deriving DecidableEq, Repr

/-- One poll of the future of wait_until with deadline `deadline` at current
time `now`: ready as soon as the wall clock has reached the deadline;
otherwise, on the first poll only, push a timer for the stored waker, and
report pending.  Returns the outcome, the new `registered` flag and the new
timer list. -/
def waitUntilPoll (now deadline : Nat) (registered : Bool) (timers : List MTimer)
    (waker : Nat) : PollOutcome × Bool × List MTimer :=
  if deadline ≤ now then (.ready, registered, timers)
  else if registered then (.pending, registered, timers)
  else (.pending, true, timers ++ [⟨waker, deadline⟩])

/-! ## Part 7: auxiliary predicates and concrete configurations used by the
claim statements and their witnesses. -/

mutual

/-- Every transform in the tree is the identity. -/
def VNode.allId : VNode → Bool
  | .node _ tr _ _ cs => decide (tr = Aff.id) && VNode.allIdList cs

def VNode.allIdList : List VNode → Bool
  | [] => true
  | c :: rest => VNode.allId c && VNode.allIdList rest

end

/-- Window with identity 0 (100 by 100) containing a container 1 holding two
leaves 2 and 3 of size 10 by 10, leaf 3 offset to x = 20: the Root, Container,
Leaf1, Leaf2 configuration of the enter/leave claim. -/
def exTreeC5 : VNode :=
  .node 0 Aff.id 100 100
    [.node 1 Aff.id 100 100
      [.node 2 (Aff.translate 0 0) 10 10 [], .node 3 (Aff.translate 20 0) 10 10 []]]

/-- Pristine input state of a freshly created window. -/
def exIst0 : InputState := ⟨0, [], none, none, none, none, []⟩

/-- The input state after the pointer visited the point hitting
Root, Container, Leaf1 in exTreeC5. -/
def exIst1 : InputState := ⟨0, [], none, none, none, some 2, [0, 1, 2]⟩

/-- Root 5 with child 6 translated by (10, 0) holding child 7 with identity
transform; exhibits the double application of the ancestor transform in the
hit-test recursion. -/
def exTreeDeep : VNode :=
  .node 5 Aff.id 100 100 [.node 6 (Aff.translate 10 0) 50 50 [.node 7 Aff.id 50 50 []]]

/-- Three nested nodes A (10), B (11), C (12) with identity transforms, all
containing the probe point. -/
def exTreeABC : VNode :=
  .node 10 Aff.id 30 30 [.node 11 Aff.id 20 20 [.node 12 Aff.id 10 10 []]]

/-- The same tree with C removed. -/
def exTreeAB : VNode :=
  .node 10 Aff.id 30 30 [.node 11 Aff.id 20 20 []]

/-- A window whose input focus is node 5 of the tree, about to receive a
keyboard event. -/
def exWindow : WindowState :=
  ⟨.node 5 Aff.id 100 100 [], (0, 0), { exIst0 with focus := some 5 }, none, false⟩

/-- Two listeners that have both been polled once (wakers 10 and 11 stored),
awaiting the same handler. -/
def exHandler2 : HandlerState Nat :=
  ⟨[(0, ⟨false, some 10⟩), (1, ⟨false, some 11⟩)], none, none, 0⟩

/-- One listener that registered but has never been polled: no waker. -/
def exHandler1 : HandlerState Nat :=
  ⟨[(0, ⟨false, none⟩)], none, none, 0⟩

/-- A three-node chain 0 → 1 → 2 built by two attach operations; both dirty
flags are set on every node (they are set at creation and attaching keeps
them). -/
def exC7Tree : TreeState :=
  applyOps 3 [TreeOp.addChild 0 1, TreeOp.addChild 1 2] initTree

/-! ## Theorems.  First the broadcast handler (claims C1 and C6). -/

theorem lookupL_updateL_self (f : Listener → Listener) (ls : List (Nat × Listener)) (k : Nat) :
    lookupL (updateL f ls k) k = (lookupL ls k).map f := by
  induction ls with
  | nil => rfl
  | cons hd tl ih =>
    obtain ⟨k0, l0⟩ := hd
    by_cases h : k0 = k
    · simp [updateL, lookupL, h]
    · simp [updateL, lookupL, h, ih]

theorem lookupL_updateL_ne (f : Listener → Listener) (ls : List (Nat × Listener)) (k k1 : Nat)
    (h : k1 ≠ k) : lookupL (updateL f ls k) k1 = lookupL ls k1 := by
  induction ls with
  | nil => rfl
  | cons hd tl ih =>
    obtain ⟨k0, l0⟩ := hd
    by_cases hk : k0 = k
    · have h2 : ¬k0 = k1 := fun he => h (he ▸ hk)
      simp only [updateL, if_pos hk, lookupL, if_neg h2]
    · simp only [updateL, if_neg hk, lookupL, ih]

theorem lookupL_removeL_ne (ls : List (Nat × Listener)) (k k1 : Nat) (h : k1 ≠ k) :
    lookupL (removeL ls k) k1 = lookupL ls k1 := by
  induction ls with
  | nil => rfl
  | cons hd tl ih =>
    obtain ⟨k0, l0⟩ := hd
    by_cases hk : k0 = k
    · have h2 : ¬k0 = k1 := fun he => h (he ▸ hk)
      simp only [removeL, if_pos hk, lookupL, if_neg h2, ih]
    · simp only [removeL, if_neg hk, lookupL, ih]

theorem lookupL_mem (ls : List (Nat × Listener)) (k : Nat) (l : Listener)
    (h : lookupL ls k = some l) : (k, l) ∈ ls := by
  induction ls with
  | nil => simp [lookupL] at h
  | cons hd tl ih =>
    obtain ⟨k0, l0⟩ := hd
    by_cases hk : k0 = k
    · subst hk
      simp [lookupL] at h
      simp [h]
    · simp only [lookupL, if_neg hk] at h
      exact List.mem_cons_of_mem _ (ih h)

theorem lookupL_eq_none_of_not_mem (ls : List (Nat × Listener)) (k : Nat)
    (h : k ∉ ls.map Prod.fst) : lookupL ls k = none := by
  induction ls with
  | nil => rfl
  | cons hd tl ih =>
    obtain ⟨k0, l0⟩ := hd
    simp only [List.map_cons, List.mem_cons] at h
    push_neg at h
    simp only [lookupL, if_neg (Ne.symm h.1)]
    exact ih h.2

theorem lookupL_append_some (ls ls2 : List (Nat × Listener)) (k : Nat) (l : Listener)
    (h : lookupL ls k = some l) : lookupL (ls ++ ls2) k = some l := by
  induction ls with
  | nil => simp [lookupL] at h
  | cons hd tl ih =>
    obtain ⟨k0, l0⟩ := hd
    by_cases hk : k0 = k
    · simp only [lookupL, if_pos hk] at h
      simp [lookupL, hk, h]
    · simp only [lookupL, if_neg hk] at h ⊢
      exact ih h

theorem le_foldr_max (ks : List Nat) (k : Nat) (h : k ∈ ks) : k ≤ ks.foldr max 0 := by
  induction ks with
  | nil => cases h
  | cons hd tl ih =>
    rcases List.mem_cons.mp h with h | h
    · subst h; exact le_max_left _ _
    · exact le_trans (ih h) (le_max_right _ _)

theorem freshKey_not_mem (ls : List (Nat × Listener)) : freshKey ls ∉ ls.map Prod.fst := by
  intro hmem
  have := le_foldr_max (ls.map Prod.fst) _ hmem
  simp only [freshKey] at this
  omega

theorem keys_updateL (f : Listener → Listener) (ls : List (Nat × Listener)) (k : Nat) :
    (updateL f ls k).map Prod.fst = ls.map Prod.fst := by
  induction ls with
  | nil => rfl
  | cons hd tl ih =>
    obtain ⟨k0, l0⟩ := hd
    by_cases h : k0 = k <;> simp [updateL, h, ih]

theorem removeL_eq_of_not_mem (ls : List (Nat × Listener)) (k : Nat)
    (h : k ∉ ls.map Prod.fst) : removeL ls k = ls := by
  induction ls with
  | nil => rfl
  | cons hd tl ih =>
    obtain ⟨k0, l0⟩ := hd
    simp only [List.map_cons, List.mem_cons] at h
    push_neg at h
    simp [removeL, if_neg (Ne.symm h.1), ih h.2]

theorem keys_removeL (ls : List (Nat × Listener)) (k : Nat) :
    (removeL ls k).map Prod.fst = (ls.map Prod.fst).filter (fun x => x ≠ k) := by
  induction ls with
  | nil => rfl
  | cons hd tl ih =>
    obtain ⟨k0, l0⟩ := hd
    by_cases h : k0 = k <;> simp [removeL, h, ih, List.filter]

theorem filter_notified_updateL_clear (ls : List (Nat × Listener)) (k : Nat) (l : Listener)
    (hl : lookupL ls k = some l) (hn : l.notified = true) :
    ((updateL (fun l0 => { l0 with notified := false }) ls k).filter
        fun kl => kl.2.notified).length + 1
      = (ls.filter fun kl => kl.2.notified).length := by
  induction ls with
  | nil => simp [lookupL] at hl
  | cons hd tl ih =>
    obtain ⟨k0, l0⟩ := hd
    by_cases h : k0 = k
    · simp only [lookupL, if_pos h] at hl
      cases hl
      simp [updateL, if_pos h, List.filter, hn]
    · simp only [lookupL, if_neg h] at hl
      simp only [updateL, if_neg h, List.filter]
      cases hln : l0.notified <;> simp [hln, ih hl]

theorem filter_notified_updateL_waker (w : Nat) (ls : List (Nat × Listener)) (k : Nat) :
    ((updateL (fun l0 => { l0 with waker := some w }) ls k).filter
        fun kl => kl.2.notified).length
      = (ls.filter fun kl => kl.2.notified).length := by
  induction ls with
  | nil => rfl
  | cons hd tl ih =>
    obtain ⟨k0, l0⟩ := hd
    by_cases h : k0 = k
    · cases hln : l0.notified <;> simp [updateL, if_pos h, List.filter, hln]
    · simp only [updateL, if_neg h, List.filter]
      cases hln : l0.notified <;> simp [hln, ih]

theorem filter_notified_removeL (ls : List (Nat × Listener)) (k : Nat) (l : Listener)
    (hnd : (ls.map Prod.fst).Nodup) (hl : lookupL ls k = some l) :
    (ls.filter fun kl => kl.2.notified).length
      = ((removeL ls k).filter fun kl => kl.2.notified).length
        + (if l.notified then 1 else 0) := by
  induction ls with
  | nil => simp [lookupL] at hl
  | cons hd tl ih =>
    obtain ⟨k0, l0⟩ := hd
    simp only [List.map_cons, List.nodup_cons] at hnd
    by_cases h : k0 = k
    · simp only [lookupL, if_pos h] at hl
      cases hl
      have hrm : removeL tl k = tl := removeL_eq_of_not_mem tl k (h ▸ hnd.1)
      simp only [removeL, if_pos h, hrm, List.filter_cons]
      cases hln : l.notified <;> simp [hln]
    · simp only [lookupL, if_neg h] at hl
      simp only [removeL, if_neg h, List.filter_cons]
      cases hln : l0.notified <;> simp [hln, ih hnd.2 hl] <;> omega

theorem filter_notified_notify (ls : List (Nat × Listener))
    (hn : ∀ kl ∈ ls, kl.2.notified = false) :
    ((ls.map fun kl =>
        match kl.2.waker with
        | some _ => (kl.1, { kl.2 with notified := true, waker := none })
        | none => kl).filter fun kl => kl.2.notified).length
      = (ls.filter fun kl => kl.2.waker.isSome).length := by
  induction ls with
  | nil => rfl
  | cons hd tl ih =>
    have hhd : hd.2.notified = false := hn hd (List.mem_cons_self _ _)
    have htl : ∀ kl ∈ tl, kl.2.notified = false := fun kl hm => hn kl (List.mem_cons_of_mem _ hm)
    cases hw : hd.2.waker <;>
      simp [List.filter, hw, hhd, ih htl]

theorem keys_notify (ls : List (Nat × Listener)) :
    ((ls.map fun kl =>
        match kl.2.waker with
        | some _ => (kl.1, { kl.2 with notified := true, waker := none })
        | none => kl).map Prod.fst) = ls.map Prod.fst := by
  induction ls with
  | nil => rfl
  | cons hd tl ih => cases hw : hd.2.waker <;> simp [hw, ih]

theorem lookupL_notify (ls : List (Nat × Listener)) (k : Nat) :
    lookupL (ls.map fun kl =>
        match kl.2.waker with
        | some _ => (kl.1, { kl.2 with notified := true, waker := none })
        | none => kl) k
      = (lookupL ls k).map fun l =>
          match l.waker with
          | some _ => { l with notified := true, waker := none }
          | none => l := by
  induction ls with
  | nil => rfl
  | cons hd tl ih =>
    obtain ⟨k0, l0⟩ := hd
    by_cases h : k0 = k
    · cases hw : l0.waker <;> simp [lookupL, if_pos h, hw]
    · cases hw : l0.waker <;> simp [lookupL, if_neg h, hw, ih]

theorem ackStep_listeners {T : Type} (s : HandlerState T) :
    (ackStep s).listeners = s.listeners := by
  simp only [ackStep]; split <;> rfl

theorem ackStep_value {T : Type} (s : HandlerState T) : (ackStep s).value = s.value := by
  simp only [ackStep]; split <;> rfl

theorem ackStep_ack {T : Type} (s : HandlerState T) :
    (ackStep s).ackRemaining = s.ackRemaining - 1 := by
  simp only [ackStep]; split <;> rfl

theorem emitBody_value {T : Type} (s : HandlerState T) (v : T) (hne : s.listeners.isEmpty = false) :
    (emitBody s v).value = some v := by
  simp [emitBody, hne]

theorem emitBody_listeners {T : Type} (s : HandlerState T) (v : T)
    (hne : s.listeners.isEmpty = false) :
    (emitBody s v).listeners
      = s.listeners.map fun kl =>
          match kl.2.waker with
          | some _ => (kl.1, { kl.2 with notified := true, waker := none })
          | none => kl := by
  simp [emitBody, hne]

theorem hwf_emitBody {T : Type} (s : HandlerState T) (v : T) (hwf : HWF s)
    (hack : s.ackRemaining = 0) : HWF (emitBody s v) := by
  unfold emitBody
  by_cases hne : s.listeners.isEmpty
  · simpa [hne] using hwf
  · have hzero : (s.listeners.filter fun kl => kl.2.notified).length = 0 := by
      rw [← hwf.2]; exact hack
    have hnone : ∀ kl ∈ s.listeners, kl.2.notified = false := by
      intro kl hm
      have := List.filter_eq_nil.mp (List.length_eq_zero.mp hzero) kl hm
      simpa using this
    constructor
    · simp only [hne, Bool.false_eq_true, if_false]
      rw [keys_notify]
      exact hwf.1
    · simp only [hne, Bool.false_eq_true, if_false]
      exact (filter_notified_notify s.listeners hnone).symm

theorem hwf_hstep {T : Type} (s s1 : HandlerState T) (a : HLabel T) (hwf : HWF s)
    (h : hstep s a = some s1) : HWF s1 := by
  cases a with
  | emitStart v =>
    simp only [hstep] at h
    by_cases hack : s.ackRemaining = 0
    · rw [if_pos hack] at h
      cases h
      exact hwf_emitBody s v hwf hack
    · rw [if_neg hack] at h; cases h
  | register =>
    simp only [hstep, waitRegister] at h
    cases h
    constructor
    · simp only [List.map_append, List.map_cons, List.map_nil]
      rw [List.nodup_append]
      exact ⟨hwf.1, List.nodup_singleton _,
        by simpa using fun hmem => freshKey_not_mem s.listeners hmem⟩
    · simpa using hwf.2
  | poll slot w =>
    simp only [hstep] at h
    by_cases hs : (lookupL s.listeners slot).isSome
    · rw [if_pos hs] at h
      obtain ⟨l, hl⟩ := Option.isSome_iff_exists.mp hs
      cases h
      simp only [waitPoll, hl]
      cases hln : l.notified
      · rw [if_neg (by simp [hln])]
        exact ⟨by rw [keys_updateL]; exact hwf.1,
          by rw [filter_notified_updateL_waker]; exact hwf.2⟩
      · rw [if_pos rfl]
        have hcnt := filter_notified_updateL_clear s.listeners slot l hl hln
        constructor
        · rw [ackStep_listeners]
          simpa [keys_updateL] using hwf.1
        · rw [ackStep_listeners, ackStep_ack]
          have h2 := hwf.2
          simp only [] at h2 ⊢
          omega
    · rw [if_neg hs] at h; cases h
  | drop slot =>
    simp only [hstep] at h
    by_cases hs : (lookupL s.listeners slot).isSome
    · rw [if_pos hs] at h
      obtain ⟨l, hl⟩ := Option.isSome_iff_exists.mp hs
      cases h
      have hcnt := filter_notified_removeL s.listeners slot l hwf.1 hl
      have hkeys : ((removeL s.listeners slot).map Prod.fst).Nodup := by
        rw [keys_removeL]; exact hwf.1.filter _
      have h2 := hwf.2
      simp only [waitDrop, hl]
      by_cases hln : l.notified = true
      · rw [if_pos hln]
        rw [show (if l.notified = true then 1 else 0) = 1 from if_pos hln] at hcnt
        refine ⟨?_, ?_⟩
        · show ((removeL (ackStep s).listeners slot).map Prod.fst).Nodup
          rw [ackStep_listeners]; exact hkeys
        · show (ackStep s).ackRemaining
            = ((removeL (ackStep s).listeners slot).filter fun kl => kl.2.notified).length
          rw [ackStep_listeners, ackStep_ack]
          omega
      · rw [if_neg hln]
        rw [show (if l.notified = true then 1 else 0) = 0 from if_neg hln] at hcnt
        refine ⟨hkeys, ?_⟩
        show s.ackRemaining = ((removeL s.listeners slot).filter fun kl => kl.2.notified).length
        omega
    · rw [if_neg hs] at h; cases h

theorem notified_count_pos {T : Type} (s : HandlerState T) (slot : Nat)
    (h : notifiedIn s slot = true) :
    (s.listeners.filter fun kl => kl.2.notified).length ≠ 0 := by
  unfold notifiedIn at h
  cases hl : lookupL s.listeners slot with
  | none => rw [hl] at h; simp at h
  | some l =>
    rw [hl] at h
    simp at h
    have hmem := lookupL_mem _ _ _ hl
    have hfil : (slot, l) ∈ s.listeners.filter fun kl => kl.2.notified :=
      List.mem_filter.mpr ⟨hmem, by simpa using h⟩
    intro hz
    rw [List.length_eq_zero.mp hz] at hfil
    cases hfil

theorem notifiedIn_false_of_ack_zero {T : Type} (s : HandlerState T) (hwf : HWF s)
    (hack : s.ackRemaining = 0) (slot : Nat) : notifiedIn s slot = false := by
  cases h : notifiedIn s slot
  · rfl
  · exact absurd (hwf.2 ▸ hack) (notified_count_pos s slot h)

theorem slot_step {T : Type} [DecidableEq T] (s s1 : HandlerState T) (a : HLabel T)
    (slot : Nat) (v : T) (hwf : HWF s) (h : hstep s a = some s1)
    (hnot : notifiedIn s slot = true) (hval : s.value = some v) :
    Settles v slot a s = true ∨ (notifiedIn s1 slot = true ∧ s1.value = some v) := by
  cases a with
  | emitStart w =>
    simp only [hstep] at h
    by_cases hack : s.ackRemaining = 0
    · exact absurd hnot (by simp [notifiedIn_false_of_ack_zero s hwf hack slot])
    · rw [if_neg hack] at h; cases h
  | register =>
    right
    simp only [hstep, waitRegister] at h
    cases h
    refine ⟨?_, hval⟩
    unfold notifiedIn at hnot ⊢
    cases hl : lookupL s.listeners slot with
    | none => rw [hl] at hnot; simp at hnot
    | some l =>
      rw [hl] at hnot
      show (((lookupL (s.listeners ++ _) slot).map Listener.notified).getD false) = true
      rw [lookupL_append_some _ _ _ _ hl]
      exact hnot
  | poll sl w =>
    by_cases hsl : sl = slot
    · left
      subst hsl
      simp [Settles, hnot, hval]
    · right
      simp only [hstep] at h
      by_cases hs : (lookupL s.listeners sl).isSome
      · rw [if_pos hs] at h
        obtain ⟨l, hl⟩ := Option.isSome_iff_exists.mp hs
        cases h
        simp only [waitPoll, hl]
        unfold notifiedIn at hnot ⊢
        cases hln : l.notified
        · rw [if_neg (by simp [hln])]
          constructor
          · show (((lookupL (updateL _ s.listeners sl) slot).map Listener.notified).getD false)
              = true
            rw [lookupL_updateL_ne _ _ _ _ (fun he => hsl he.symm)]
            exact hnot
          · exact hval
        · rw [if_pos rfl]
          constructor
          · show (((lookupL (ackStep _).listeners slot).map Listener.notified).getD false) = true
            rw [ackStep_listeners]
            show (((lookupL (updateL _ s.listeners sl) slot).map Listener.notified).getD false)
              = true
            rw [lookupL_updateL_ne _ _ _ _ (fun he => hsl he.symm)]
            exact hnot
          · show (ackStep _).value = some v
            rw [ackStep_value]
            exact hval
      · rw [if_neg hs] at h; cases h
  | drop sl =>
    by_cases hsl : sl = slot
    · left
      subst hsl
      simp only [Settles, beq_self_eq_true, Bool.true_and]
      exact hnot
    · right
      simp only [hstep] at h
      by_cases hs : (lookupL s.listeners sl).isSome
      · rw [if_pos hs] at h
        obtain ⟨l, hl⟩ := Option.isSome_iff_exists.mp hs
        cases h
        simp only [waitDrop, hl]
        have hlis : (if l.notified then ackStep s else s).listeners = s.listeners := by
          split
          · exact ackStep_listeners s
          · rfl
        have hv : (if l.notified then ackStep s else s).value = s.value := by
          split
          · exact ackStep_value s
          · rfl
        constructor
        · unfold notifiedIn at hnot ⊢
          show (((lookupL (removeL (if l.notified then ackStep s else s).listeners sl) slot).map
              Listener.notified).getD false) = true
          rw [hlis, lookupL_removeL_ne _ _ _ (fun he => hsl he.symm)]
          exact hnot
        · show (if l.notified then ackStep s else s).value = some v
          rw [hv]
          exact hval
      · rw [if_neg hs] at h; cases h

theorem settle_invariant {T : Type} [DecidableEq T] (v : T) (slot : Nat) :
    ∀ (tr : List (HLabel T)) (s s2 : HandlerState T), HWF s → execTrace s tr = some s2 →
      s2.ackRemaining = 0 → notifiedIn s slot = true → s.value = some v →
      SettledIn v slot s tr = true := by
  intro tr
  induction tr with
  | nil =>
    intro s s2 hwf hex hack hnot hval
    simp only [execTrace] at hex
    cases hex
    exact absurd hnot (by simp [notifiedIn_false_of_ack_zero s hwf hack slot])
  | cons a tr ih =>
    intro s s2 hwf hex hack hnot hval
    simp only [execTrace] at hex
    cases hst : hstep s a with
    | none => rw [hst] at hex; cases hex
    | some s1 =>
      rw [hst] at hex
      rcases slot_step s s1 a slot v hwf hst hnot hval with hset | ⟨hn1, hv1⟩
      · simp only [SettledIn, hset, Bool.true_or]
      · have hrec := ih s1 s2 (hwf_hstep s s1 a hwf hst) hex hack hn1 hv1
        simp only [SettledIn, hst, hrec, Bool.or_true]

/-- C1: once emit has stored the value and notified the listeners that had
wakers, the second ready().await of emit can only pass (the acknowledgement
count only reaches zero) after every one of those notified listeners has
either been polled and observed a clone of the emitted value, or had its wait
future dropped with the scope guard firing the acknowledgement on its behalf.
This holds along every interleaving the single-threaded scheduler can produce,
so with two listeners emit returns only after both resumed and observed the
value, and a listener cancelled mid-wait still lets emit return once the
remaining listener acknowledges. -/
theorem handler_emit_barrier {T : Type} [DecidableEq T] (s0 s2 : HandlerState T) (v : T)
    (tr : List (HLabel T)) (hwf : HWF s0) (hready : s0.ackRemaining = 0)
    (hexec : execTrace (emitBody s0 v) tr = some s2) (hdone : s2.ackRemaining = 0) :
    ∀ slot, notifiedIn (emitBody s0 v) slot = true →
      SettledIn v slot (emitBody s0 v) tr = true := by
  intro slot hnot
  by_cases hne : s0.listeners.isEmpty
  · have hid : emitBody s0 v = s0 := by simp [emitBody, hne]
    rw [hid] at hnot
    exact absurd hnot (by simp [notifiedIn_false_of_ack_zero s0 hwf hready slot])
  · have hne2 : s0.listeners.isEmpty = false := by simpa using hne
    exact settle_invariant v slot tr (emitBody s0 v) s2
      (hwf_emitBody s0 v hwf hready) hexec hdone hnot (emitBody_value s0 v hne2)

/-- Witness for the barrier theorem: two listeners with stored wakers, emit of
the value 7, both listeners polled; the trace reaches acknowledgement count
zero and slot 0 indeed observed the value. -/
theorem handler_emit_barrier_witness :
    SettledIn 7 0 (emitBody exHandler2 7) [HLabel.poll 0 20, HLabel.poll 1 21] = true :=
  handler_emit_barrier exHandler2
    ⟨[(0, ⟨false, none⟩), (1, ⟨false, none⟩)], none, some 7, 0⟩ 7
    [HLabel.poll 0 20, HLabel.poll 1 21]
    (by decide) (by decide) (by decide) (by decide) 0 (by decide)

/-- C6 amended: a listener that registered but was never polled (no waker) is
not counted toward the acknowledgement barrier and is not marked notified by
emit; on its next poll it does not observe the emitted value: the poll stores
its waker and returns pending, so the listener misses this emission and only
resumes on a later one. -/
theorem handler_unpolled_listener {T : Type} (s0 : HandlerState T) (slot w : Nat) (v : T)
    (hl : lookupL s0.listeners slot = some ⟨false, none⟩)
    (hne : s0.listeners.isEmpty = false) :
    lookupL (emitBody s0 v).listeners slot = some ⟨false, none⟩ ∧
      (emitBody s0 v).ackRemaining
        = (s0.listeners.filter fun kl => kl.2.waker.isSome).length ∧
      (waitPoll (emitBody s0 v) slot w).2 = none ∧
      lookupL ((waitPoll (emitBody s0 v) slot w).1).listeners slot
        = some ⟨false, some w⟩ := by
  have h1 : lookupL (emitBody s0 v).listeners slot = some ⟨false, none⟩ := by
    rw [emitBody_listeners s0 v hne, lookupL_notify, hl]
    rfl
  refine ⟨h1, by simp [emitBody, hne], ?_, ?_⟩
  · simp [waitPoll, h1]
  · simp only [waitPoll, h1, Bool.false_eq_true, if_false]
    rw [lookupL_updateL_self, h1]
    rfl

/-- C6 counterexample: with a single never-polled listener, emit stores the
value, but the listener's next poll returns pending without observing it,
contradicting the claim that it sees the value on its next poll. -/
theorem handler_unpolled_counterexample :
    (emitBody exHandler1 5).value = some 5 ∧
      (waitPoll (emitBody exHandler1 5) 0 3).2 = none := by
  decide

/-- Witness for the amended unpolled-listener theorem at the one-listener
configuration. -/
theorem handler_unpolled_listener_witness :
    (waitPoll (emitBody exHandler1 5) 0 3).2 = none :=
  (handler_unpolled_listener exHandler1 0 3 5 (by decide) (by decide)).2.2.1

/-! Theorems about the element tree (claims C2, C7, C10).  First, reading a
node after the elementary writes. -/

theorem updNode_nodes (t : TreeState) (n : Nat) (f : ENode → ENode) (m : Nat) :
    (updNode t n f).nodes m = if m = n then f (t.nodes m) else t.nodes m := rfl

theorem setPrev_nodes (t : TreeState) (n : Nat) (v : Option Nat) (m : Nat) :
    (setPrev t n v).nodes m = if m = n then { t.nodes m with prev := v } else t.nodes m := rfl

theorem setNext_nodes (t : TreeState) (n : Nat) (v : Option Nat) (m : Nat) :
    (setNext t n v).nodes m = if m = n then { t.nodes m with next := v } else t.nodes m := rfl

theorem setFirstChild_nodes (t : TreeState) (n : Nat) (v : Option Nat) (m : Nat) :
    (setFirstChild t n v).nodes m
      = if m = n then { t.nodes m with firstChild := v } else t.nodes m := rfl

theorem setLastChild_nodes (t : TreeState) (n : Nat) (v : Option Nat) (m : Nat) :
    (setLastChild t n v).nodes m
      = if m = n then { t.nodes m with lastChild := v } else t.nodes m := rfl

theorem setParent_nodes (t : TreeState) (n : Nat) (v : Option Nat) (m : Nat) :
    (setParent t n v).nodes m
      = if m = n then { t.nodes m with parent := v } else t.nodes m := rfl

theorem setDirtyFlags_links (fuel : Nat) :
    ∀ (t : TreeState) (n : Nat) (lay pai : Bool) (m : Nat),
      linksOf ((setDirtyFlags fuel t n lay pai).nodes m) = linksOf (t.nodes m) := by
  induction fuel with
  | zero => intro t n lay pai m; rfl
  | succ fu ih =>
    intro t n lay pai m
    simp only [setDirtyFlags]
    have h1 : ∀ (t2 : TreeState) (b : Bool),
        (if b then { t2 with repaintRequested := true } else t2).nodes m = t2.nodes m := by
      intro t2 b; split <;> rfl
    rw [h1]
    have h2 : linksOf ((updNode t n fun e =>
        { e with needsLayout := (t.nodes n).needsLayout || lay,
                 needsPaint := (t.nodes n).needsPaint || pai }).nodes m)
        = linksOf (t.nodes m) := by
      rw [updNode_nodes]
      split <;> rfl
    split
    · rw [ih, h2]
    · rw [h2]

theorem markNeedsRelayout_links (fuel : Nat) (t : TreeState) (n m : Nat) :
    linksOf ((markNeedsRelayout fuel t n).nodes m) = linksOf (t.nodes m) :=
  setDirtyFlags_links fuel t n true true m

theorem linksOf_prev {e e2 : ENode} (h : linksOf e = linksOf e2) : e.prev = e2.prev :=
  congrArg (fun x => x.1) h

theorem linksOf_next {e e2 : ENode} (h : linksOf e = linksOf e2) : e.next = e2.next :=
  congrArg (fun x => x.2.1) h

theorem linksOf_firstChild {e e2 : ENode} (h : linksOf e = linksOf e2) :
    e.firstChild = e2.firstChild :=
  congrArg (fun x => x.2.2.1) h

theorem linksOf_lastChild {e e2 : ENode} (h : linksOf e = linksOf e2) :
    e.lastChild = e2.lastChild :=
  congrArg (fun x => x.2.2.2.1) h

theorem linksOf_parent {e e2 : ENode} (h : linksOf e = linksOf e2) : e.parent = e2.parent :=
  congrArg (fun x => x.2.2.2.2) h

theorem updNode_eq_self (t : TreeState) (n : Nat) (f : ENode → ENode)
    (h : f (t.nodes n) = t.nodes n) : updNode t n f = t := by
  cases t with
  | mk nodes rep =>
    simp only [updNode, TreeState.mk.injEq, and_true]
    funext m
    by_cases hm : m = n
    · subst hm; simpa using h
    · simp [hm]

theorem ENode.clear_prev_eq (e : ENode) (h : e.prev = none) :
    { e with prev := (none : Option Nat) } = e := by
  cases e; simp_all

theorem ENode.clear_next_eq (e : ENode) (h : e.next = none) :
    { e with next := (none : Option Nat) } = e := by
  cases e; simp_all

theorem ENode.clear_parent_eq (e : ENode) (h : e.parent = none) :
    { e with parent := (none : Option Nat) } = e := by
  cases e; simp_all

/-- The final fields of the detached node: detach always leaves prev, next and
parent cleared. -/
theorem detach_node_fields (fuel n : Nat) (t : TreeState) :
    ((detach fuel n t).nodes n).prev = none ∧ ((detach fuel n t).nodes n).next = none ∧
      ((detach fuel n t).nodes n).parent = none := by
  have hparent : ((detach fuel n t).nodes n).parent = none := by
    simp only [detach]
    rw [setParent_nodes, if_pos rfl]
  have hprev : ((detach fuel n t).nodes n).prev = none := by
    simp only [detach]
    rw [setParent_nodes, if_pos rfl]
    dsimp only
    split
    · rw [linksOf_prev (markNeedsRelayout_links fuel _ _ n)]
      rw [setNext_nodes, if_pos rfl]
      dsimp only
      rw [setPrev_nodes, if_pos rfl]
    · rw [setNext_nodes, if_pos rfl]
      dsimp only
      rw [setPrev_nodes, if_pos rfl]
  have hnext : ((detach fuel n t).nodes n).next = none := by
    simp only [detach]
    rw [setParent_nodes, if_pos rfl]
    dsimp only
    split
    · rw [linksOf_next (markNeedsRelayout_links fuel _ _ n)]
      rw [setNext_nodes, if_pos rfl]
    · rw [setNext_nodes, if_pos rfl]
  exact ⟨hprev, hnext, hparent⟩

/-- C10: detach of an already fully detached node (no parent, no siblings)
changes nothing at all, neither links nor dirty state nor the repaint
request; consequently running detach twice leaves exactly the state of the
first detach. -/
theorem detach_idempotent (fuel n : Nat) (t : TreeState) :
    ((t.nodes n).prev = none ∧ (t.nodes n).next = none ∧ (t.nodes n).parent = none →
      detach fuel n t = t) ∧
    detach fuel n (detach fuel n t) = detach fuel n t := by
  have hid : ∀ t2 : TreeState,
      (t2.nodes n).prev = none → (t2.nodes n).next = none → (t2.nodes n).parent = none →
        detach fuel n t2 = t2 := by
    intro t2 h1 h2 h3
    have e1 : setPrev t2 n none = t2 :=
      updNode_eq_self t2 n _ (ENode.clear_prev_eq _ h1)
    have e2 : setNext t2 n none = t2 :=
      updNode_eq_self t2 n _ (ENode.clear_next_eq _ h2)
    have e3 : setParent t2 n none = t2 :=
      updNode_eq_self t2 n _ (ENode.clear_parent_eq _ h3)
    simp only [detach, h1, h2, h3, e1, e2, e3]
  constructor
  · intro ⟨h1, h2, h3⟩
    exact hid t h1 h2 h3
  · obtain ⟨h1, h2, h3⟩ := detach_node_fields fuel n t
    exact hid _ h1 h2 h3

/-- Witness: detach of node 0 in the initial state (where every node is
detached) is a no-op. -/
theorem detach_idempotent_witness : detach 3 0 initTree = initTree :=
  (detach_idempotent 3 0 initTree).1 ⟨rfl, rfl, rfl⟩

/-! The sibling-chain representation: composition, congruence and the
correspondence with the forward and backward walks. -/

theorem headOr_append (nx : Option Nat) (l1 l2 : List Nat) :
    headOr nx (l1 ++ l2) = headOr (headOr nx l2) l1 := by
  cases l1 <;> rfl

theorem lastOr_append (pr : Option Nat) (l1 l2 : List Nat) :
    lastOr pr (l1 ++ l2) = lastOr (lastOr pr l1) l2 := by
  induction l1 generalizing pr with
  | nil => rfl
  | cons x xs ih => exact ih (some x)

theorem chainLinks_prev {e e2 : ENode} (h : chainLinks e = chainLinks e2) : e.prev = e2.prev :=
  congrArg (fun x => x.1) h

theorem chainLinks_next {e e2 : ENode} (h : chainLinks e = chainLinks e2) : e.next = e2.next :=
  congrArg (fun x => x.2.1) h

theorem chainLinks_parent {e e2 : ENode} (h : chainLinks e = chainLinks e2) :
    e.parent = e2.parent :=
  congrArg (fun x => x.2.2) h

theorem chainLinks_of_linksOf {e e2 : ENode} (h : linksOf e = linksOf e2) :
    chainLinks e = chainLinks e2 := by
  have h1 := linksOf_prev h
  have h2 := linksOf_next h
  have h3 := linksOf_parent h
  simp [chainLinks, h1, h2, h3]

theorem chainSeg_congr (t t2 : TreeState) (p : Option Nat) :
    ∀ (l : List Nat) (pr nx : Option Nat),
      (∀ x ∈ l, chainLinks (t2.nodes x) = chainLinks (t.nodes x)) →
      ChainSeg t p pr nx l → ChainSeg t2 p pr nx l := by
  intro l
  induction l with
  | nil => intro pr nx _ _; trivial
  | cons x xs ih =>
    intro pr nx hsame hc
    obtain ⟨h1, h2, h3, h4⟩ := hc
    have hx := hsame x (List.mem_cons_self _ _)
    exact ⟨(chainLinks_prev hx).trans h1, (chainLinks_parent hx).trans h2,
      (chainLinks_next hx).trans h3,
      ih (some x) nx (fun y hy => hsame y (List.mem_cons_of_mem _ hy)) h4⟩

theorem chainSeg_append (t : TreeState) (p : Option Nat) :
    ∀ (l1 l2 : List Nat) (pr nx : Option Nat),
      ChainSeg t p pr nx (l1 ++ l2)
        ↔ ChainSeg t p pr (headOr nx l2) l1 ∧ ChainSeg t p (lastOr pr l1) nx l2 := by
  intro l1
  induction l1 with
  | nil =>
    intro l2 pr nx
    simp only [List.nil_append, lastOr]
    exact ⟨fun h => ⟨trivial, h⟩, fun h => h.2⟩
  | cons x xs ih =>
    intro l2 pr nx
    constructor
    · intro hc
      obtain ⟨h1, h2, h3, h4⟩ := hc
      simp only [List.append_eq] at h3 h4
      obtain ⟨h5, h6⟩ := (ih l2 (some x) nx).mp h4
      rw [headOr_append] at h3
      exact ⟨⟨h1, h2, h3, h5⟩, h6⟩
    · intro hc
      obtain ⟨⟨h1, h2, h3, h5⟩, h6⟩ := hc
      refine ⟨h1, h2, ?_, ?_⟩
      · show (t.nodes x).next = headOr nx (xs ++ l2)
        rw [headOr_append]
        exact h3
      · show ChainSeg t p (some x) nx (xs ++ l2)
        exact (ih l2 (some x) nx).mpr ⟨h5, h6⟩

theorem chainSeg_parent_of_mem (t : TreeState) (p : Option Nat) :
    ∀ (l : List Nat) (pr nx : Option Nat), ChainSeg t p pr nx l →
      ∀ x ∈ l, (t.nodes x).parent = p := by
  intro l
  induction l with
  | nil => intro pr nx _ x hx; cases hx
  | cons y ys ih =>
    intro pr nx hc x hx
    obtain ⟨h1, h2, h3, h4⟩ := hc
    rcases List.mem_cons.mp hx with h | h
    · subst h; exact h2
    · exact ih (some y) nx h4 x h

theorem walkNext_chainSeg (t : TreeState) (p : Option Nat) :
    ∀ (l : List Nat) (pr : Option Nat), ChainSeg t p pr none l →
      walkNext t l.length (headOr none l) = some l := by
  intro l
  induction l with
  | nil => intro pr _; rfl
  | cons x xs ih =>
    intro pr hc
    obtain ⟨h1, h2, h3, h4⟩ := hc
    show walkNext t (xs.length + 1) (some x) = some (x :: xs)
    simp only [walkNext, h3, ih (some x) h4]
    rfl

theorem walkPrev_chainSeg_gen (t : TreeState) (p : Option Nat) :
    ∀ (l : List Nat) (pr nx : Option Nat) (fuel : Nat), ChainSeg t p pr nx l →
      walkPrev t (fuel + l.length) (lastOr pr l)
        = (walkPrev t fuel pr).map (fun m => l.reverse ++ m) := by
  intro l
  induction l with
  | nil =>
    intro pr nx fuel _
    simp only [List.length_nil, Nat.add_zero, lastOr, List.reverse_nil, List.nil_append]
    cases walkPrev t fuel pr <;> rfl
  | cons x xs ih =>
    intro pr nx fuel hc
    obtain ⟨h1, h2, h3, h4⟩ := hc
    have hrec := ih (some x) nx (fuel + 1) h4
    have harith : fuel + (x :: xs).length = (fuel + 1) + xs.length := by
      simp only [List.length_cons]; omega
    rw [show lastOr pr (x :: xs) = lastOr (some x) xs from rfl, harith, hrec]
    have hx : walkPrev t (fuel + 1) (some x) = (walkPrev t fuel pr).map (x :: ·) := by
      simp only [walkPrev, h1]
    rw [hx]
    cases walkPrev t fuel pr <;>
      simp [List.reverse_cons, List.append_assoc]

theorem walkPrev_chainSeg (t : TreeState) (p : Option Nat) (l : List Nat)
    (hc : ChainSeg t p none none l) :
    walkPrev t l.length (lastOr none l) = some l.reverse := by
  have h := walkPrev_chainSeg_gen t p l none none 0 hc
  simpa [walkPrev, Nat.zero_add] using h

/-! Field stability of the elementary writes: each setter changes exactly one
field of exactly one node. -/

@[simp] theorem setPrev_prev (t : TreeState) (n : Nat) (v : Option Nat) (m : Nat) :
    ((setPrev t n v).nodes m).prev = if m = n then v else (t.nodes m).prev := by
  rw [setPrev_nodes]; split <;> rfl

@[simp] theorem setPrev_next (t : TreeState) (n : Nat) (v : Option Nat) (m : Nat) :
    ((setPrev t n v).nodes m).next = (t.nodes m).next := by
  rw [setPrev_nodes]; split <;> rfl

@[simp] theorem setPrev_firstChild (t : TreeState) (n : Nat) (v : Option Nat) (m : Nat) :
    ((setPrev t n v).nodes m).firstChild = (t.nodes m).firstChild := by
  rw [setPrev_nodes]; split <;> rfl

@[simp] theorem setPrev_lastChild (t : TreeState) (n : Nat) (v : Option Nat) (m : Nat) :
    ((setPrev t n v).nodes m).lastChild = (t.nodes m).lastChild := by
  rw [setPrev_nodes]; split <;> rfl

@[simp] theorem setPrev_parent (t : TreeState) (n : Nat) (v : Option Nat) (m : Nat) :
    ((setPrev t n v).nodes m).parent = (t.nodes m).parent := by
  rw [setPrev_nodes]; split <;> rfl

@[simp] theorem setNext_next (t : TreeState) (n : Nat) (v : Option Nat) (m : Nat) :
    ((setNext t n v).nodes m).next = if m = n then v else (t.nodes m).next := by
  rw [setNext_nodes]; split <;> rfl

@[simp] theorem setNext_prev (t : TreeState) (n : Nat) (v : Option Nat) (m : Nat) :
    ((setNext t n v).nodes m).prev = (t.nodes m).prev := by
  rw [setNext_nodes]; split <;> rfl

@[simp] theorem setNext_firstChild (t : TreeState) (n : Nat) (v : Option Nat) (m : Nat) :
    ((setNext t n v).nodes m).firstChild = (t.nodes m).firstChild := by
  rw [setNext_nodes]; split <;> rfl

@[simp] theorem setNext_lastChild (t : TreeState) (n : Nat) (v : Option Nat) (m : Nat) :
    ((setNext t n v).nodes m).lastChild = (t.nodes m).lastChild := by
  rw [setNext_nodes]; split <;> rfl

@[simp] theorem setNext_parent (t : TreeState) (n : Nat) (v : Option Nat) (m : Nat) :
    ((setNext t n v).nodes m).parent = (t.nodes m).parent := by
  rw [setNext_nodes]; split <;> rfl

@[simp] theorem setFirstChild_firstChild (t : TreeState) (n : Nat) (v : Option Nat) (m : Nat) :
    ((setFirstChild t n v).nodes m).firstChild
      = if m = n then v else (t.nodes m).firstChild := by
  rw [setFirstChild_nodes]; split <;> rfl

@[simp] theorem setFirstChild_prev (t : TreeState) (n : Nat) (v : Option Nat) (m : Nat) :
    ((setFirstChild t n v).nodes m).prev = (t.nodes m).prev := by
  rw [setFirstChild_nodes]; split <;> rfl

@[simp] theorem setFirstChild_next (t : TreeState) (n : Nat) (v : Option Nat) (m : Nat) :
    ((setFirstChild t n v).nodes m).next = (t.nodes m).next := by
  rw [setFirstChild_nodes]; split <;> rfl

@[simp] theorem setFirstChild_lastChild (t : TreeState) (n : Nat) (v : Option Nat) (m : Nat) :
    ((setFirstChild t n v).nodes m).lastChild = (t.nodes m).lastChild := by
  rw [setFirstChild_nodes]; split <;> rfl

@[simp] theorem setFirstChild_parent (t : TreeState) (n : Nat) (v : Option Nat) (m : Nat) :
    ((setFirstChild t n v).nodes m).parent = (t.nodes m).parent := by
  rw [setFirstChild_nodes]; split <;> rfl

@[simp] theorem setLastChild_lastChild (t : TreeState) (n : Nat) (v : Option Nat) (m : Nat) :
    ((setLastChild t n v).nodes m).lastChild
      = if m = n then v else (t.nodes m).lastChild := by
  rw [setLastChild_nodes]; split <;> rfl

@[simp] theorem setLastChild_prev (t : TreeState) (n : Nat) (v : Option Nat) (m : Nat) :
    ((setLastChild t n v).nodes m).prev = (t.nodes m).prev := by
  rw [setLastChild_nodes]; split <;> rfl

@[simp] theorem setLastChild_next (t : TreeState) (n : Nat) (v : Option Nat) (m : Nat) :
    ((setLastChild t n v).nodes m).next = (t.nodes m).next := by
  rw [setLastChild_nodes]; split <;> rfl

@[simp] theorem setLastChild_firstChild (t : TreeState) (n : Nat) (v : Option Nat) (m : Nat) :
    ((setLastChild t n v).nodes m).firstChild = (t.nodes m).firstChild := by
  rw [setLastChild_nodes]; split <;> rfl

@[simp] theorem setLastChild_parent (t : TreeState) (n : Nat) (v : Option Nat) (m : Nat) :
    ((setLastChild t n v).nodes m).parent = (t.nodes m).parent := by
  rw [setLastChild_nodes]; split <;> rfl

@[simp] theorem setParent_parent (t : TreeState) (n : Nat) (v : Option Nat) (m : Nat) :
    ((setParent t n v).nodes m).parent = if m = n then v else (t.nodes m).parent := by
  rw [setParent_nodes]; split <;> rfl

@[simp] theorem setParent_prev (t : TreeState) (n : Nat) (v : Option Nat) (m : Nat) :
    ((setParent t n v).nodes m).prev = (t.nodes m).prev := by
  rw [setParent_nodes]; split <;> rfl

@[simp] theorem setParent_next (t : TreeState) (n : Nat) (v : Option Nat) (m : Nat) :
    ((setParent t n v).nodes m).next = (t.nodes m).next := by
  rw [setParent_nodes]; split <;> rfl

@[simp] theorem setParent_firstChild (t : TreeState) (n : Nat) (v : Option Nat) (m : Nat) :
    ((setParent t n v).nodes m).firstChild = (t.nodes m).firstChild := by
  rw [setParent_nodes]; split <;> rfl

@[simp] theorem setParent_lastChild (t : TreeState) (n : Nat) (v : Option Nat) (m : Nat) :
    ((setParent t n v).nodes m).lastChild = (t.nodes m).lastChild := by
  rw [setParent_nodes]; split <;> rfl

@[simp] theorem markNeedsRelayout_prev (fuel : Nat) (t : TreeState) (n m : Nat) :
    ((markNeedsRelayout fuel t n).nodes m).prev = (t.nodes m).prev :=
  linksOf_prev (markNeedsRelayout_links fuel t n m)

@[simp] theorem markNeedsRelayout_next (fuel : Nat) (t : TreeState) (n m : Nat) :
    ((markNeedsRelayout fuel t n).nodes m).next = (t.nodes m).next :=
  linksOf_next (markNeedsRelayout_links fuel t n m)

@[simp] theorem markNeedsRelayout_firstChild (fuel : Nat) (t : TreeState) (n m : Nat) :
    ((markNeedsRelayout fuel t n).nodes m).firstChild = (t.nodes m).firstChild :=
  linksOf_firstChild (markNeedsRelayout_links fuel t n m)

@[simp] theorem markNeedsRelayout_lastChild (fuel : Nat) (t : TreeState) (n m : Nat) :
    ((markNeedsRelayout fuel t n).nodes m).lastChild = (t.nodes m).lastChild :=
  linksOf_lastChild (markNeedsRelayout_links fuel t n m)

@[simp] theorem markNeedsRelayout_parent (fuel : Nat) (t : TreeState) (n m : Nat) :
    ((markNeedsRelayout fuel t n).nodes m).parent = (t.nodes m).parent :=
  linksOf_parent (markNeedsRelayout_links fuel t n m)

/-! Descriptions of the link fields after detach, in terms of the original
state. -/

theorem detach_parent_ne (fuel n : Nat) (t : TreeState) (m : Nat) (hm : m ≠ n) :
    ((detach fuel n t).nodes m).parent = (t.nodes m).parent := by
  rcases hpv : (t.nodes n).prev with _ | a <;>
    rcases hnx : (t.nodes n).next with _ | b <;>
      rcases hpa : (t.nodes n).parent with _ | q <;>
        simp [detach, hpv, hnx, hpa, hm]

theorem detach_next_ne (fuel n : Nat) (t : TreeState) (m : Nat) (hm : m ≠ n) :
    ((detach fuel n t).nodes m).next
      = if (t.nodes n).prev = some m then (t.nodes n).next else (t.nodes m).next := by
  rcases hpv : (t.nodes n).prev with _ | a <;>
    rcases hnx : (t.nodes n).next with _ | b <;>
      rcases hpa : (t.nodes n).parent with _ | q <;>
        simp [detach, hpv, hnx, hpa, hm] <;>
          split_ifs <;> subst_vars <;> first | rfl | simp_all

theorem detach_prev_ne (fuel n : Nat) (t : TreeState) (m : Nat) (hm : m ≠ n) :
    ((detach fuel n t).nodes m).prev
      = if (t.nodes n).next = some m then (t.nodes n).prev else (t.nodes m).prev := by
  rcases hpv : (t.nodes n).prev with _ | a <;>
    rcases hnx : (t.nodes n).next with _ | b <;>
      rcases hpa : (t.nodes n).parent with _ | q <;>
        simp [detach, hpv, hnx, hpa, hm] <;>
          split_ifs <;> subst_vars <;> first | rfl | simp_all

theorem detach_firstChild (fuel n : Nat) (t : TreeState) (m : Nat) :
    ((detach fuel n t).nodes m).firstChild
      = if (t.nodes n).prev = none ∧ (t.nodes n).parent = some m then (t.nodes n).next
        else (t.nodes m).firstChild := by
  rcases hpv : (t.nodes n).prev with _ | a <;>
    rcases hnx : (t.nodes n).next with _ | b <;>
      rcases hpa : (t.nodes n).parent with _ | q <;>
        simp [detach, hpv, hnx, hpa] <;>
          split_ifs <;> subst_vars <;> first | rfl | simp_all

theorem detach_lastChild (fuel n : Nat) (t : TreeState) (m : Nat) :
    ((detach fuel n t).nodes m).lastChild
      = if (t.nodes n).next = none ∧ (t.nodes n).parent = some m then (t.nodes n).prev
        else (t.nodes m).lastChild := by
  rcases hpv : (t.nodes n).prev with _ | a <;>
    rcases hnx : (t.nodes n).next with _ | b <;>
      rcases hpa : (t.nodes n).parent with _ | q <;>
        simp [detach, hpv, hnx, hpa] <;>
          split_ifs <;> subst_vars <;> first | rfl | simp_all

/-- detach preserves the converse relation between next and prev pointers. -/
theorem detach_conv (fuel n : Nat) (t : TreeState)
    (hconv : ∀ x y, (t.nodes x).next = some y ↔ (t.nodes y).prev = some x) :
    ∀ x y, ((detach fuel n t).nodes x).next = some y
      ↔ ((detach fuel n t).nodes y).prev = some x := by
  intro x y
  obtain ⟨hpn, hnn, -⟩ := detach_node_fields fuel n t
  by_cases hx : x = n
  · rw [hx, hnn]
    constructor
    · intro h; cases h
    · intro h
      by_cases hy : y = n
      · rw [hy, hpn] at h; cases h
      · rw [detach_prev_ne fuel n t y hy] at h
        split_ifs at h with hc
        · have h2 := (hconv n n).mpr h
          rw [hc] at h2
          injection h2 with h3
          exact absurd h3 hy
        · exact absurd ((hconv n y).mpr h) hc
  · by_cases hy : y = n
    · rw [hy, hpn]
      constructor
      · intro h
        rw [detach_next_ne fuel n t x hx] at h
        split_ifs at h with hc
        · exfalso
          have h2 := (hconv n n).mp h
          rw [hc] at h2
          injection h2 with h3
          exact absurd h3 hx
        · exact absurd ((hconv x n).mp h) hc
      · intro h; cases h
    · rw [detach_next_ne fuel n t x hx, detach_prev_ne fuel n t y hy]
      by_cases hc1 : (t.nodes n).prev = some x
      · rw [if_pos hc1]
        by_cases hc2 : (t.nodes n).next = some y
        · rw [if_pos hc2]
          exact iff_of_true hc2 hc1
        · rw [if_neg hc2]
          constructor
          · intro h; exact absurd h hc2
          · intro h
            have h1 := (hconv x y).mpr h
            have h2 := (hconv x n).mpr hc1
            rw [h1] at h2
            injection h2 with h3
            exact absurd h3 hy
      · rw [if_neg hc1]
        by_cases hc2 : (t.nodes n).next = some y
        · rw [if_pos hc2]
          constructor
          · intro h
            have h1 := (hconv x y).mp h
            have h2 := (hconv n y).mp hc2
            rw [h1] at h2
            injection h2 with h3
            exact absurd h3 hx
          · intro h; exact absurd h hc1
        · rw [if_neg hc2]
          exact hconv x y

/-! Membership propagates along chain links. -/

theorem chainSeg_next_of_mem (t : TreeState) (p : Option Nat) :
    ∀ (l : List Nat) (pr : Option Nat) (x w : Nat), ChainSeg t p pr none l → x ∈ l →
      (t.nodes x).next = some w → w ∈ l := by
  intro l
  induction l with
  | nil => intro pr x w _ hx; cases hx
  | cons y ys ih =>
    intro pr x w hc hx hnx
    obtain ⟨h1, h2, h3, h4⟩ := hc
    rcases List.mem_cons.mp hx with rfl | hx2
    · rw [h3] at hnx
      cases ys with
      | nil => cases hnx
      | cons z zs =>
        injection hnx with hw
        subst hw
        exact List.mem_cons_of_mem _ (List.mem_cons_self _ _)
    · exact List.mem_cons_of_mem _ (ih (some y) x w h4 hx2 hnx)

theorem chainSeg_prev_of_mem_gen (t : TreeState) (p : Option Nat) :
    ∀ (l : List Nat) (pr nx : Option Nat) (x w : Nat), ChainSeg t p pr nx l → x ∈ l →
      (t.nodes x).prev = some w → w ∈ l ∨ pr = some w := by
  intro l
  induction l with
  | nil => intro pr nx x w _ hx; cases hx
  | cons y ys ih =>
    intro pr nx x w hc hx hpx
    obtain ⟨h1, h2, h3, h4⟩ := hc
    rcases List.mem_cons.mp hx with rfl | hx2
    · right; rw [← h1, hpx]
    · rcases ih (some y) nx x w h4 hx2 hpx with hmem | heq
      · exact Or.inl (List.mem_cons_of_mem _ hmem)
      · injection heq with hw
        exact Or.inl (hw ▸ List.mem_cons_self _ _)

theorem chainSeg_prev_of_mem (t : TreeState) (p : Option Nat) (l : List Nat)
    (nx : Option Nat) (x w : Nat) (hc : ChainSeg t p none nx l) (hx : x ∈ l)
    (hpx : (t.nodes x).prev = some w) : w ∈ l := by
  rcases chainSeg_prev_of_mem_gen t p l none nx x w hc hx hpx with h | h
  · exact h
  · cases h

theorem headOr_mem (l : List Nat) (x : Nat) (h : headOr none l = some x) : x ∈ l := by
  cases l with
  | nil => cases h
  | cons y ys =>
    injection h with h2
    exact h2 ▸ List.mem_cons_self _ _

theorem lastOr_mem_gen (l : List Nat) :
    ∀ (pr : Option Nat) (x : Nat), lastOr pr l = some x → x ∈ l ∨ pr = some x := by
  induction l with
  | nil => intro pr x h; exact Or.inr h
  | cons y ys ih =>
    intro pr x h
    rcases ih (some y) x h with hmem | heq
    · exact Or.inl (List.mem_cons_of_mem _ hmem)
    · injection heq with h2
      exact Or.inl (h2 ▸ List.mem_cons_self _ _)

theorem lastOr_mem (l : List Nat) (x : Nat) (h : lastOr none l = some x) : x ∈ l := by
  rcases lastOr_mem_gen l none x h with h2 | h2
  · exact h2
  · cases h2

theorem lastOr_some_ne (l : List Nat) (x : Nat) : lastOr (some x) l ≠ none := by
  induction l generalizing x with
  | nil => simp [lastOr]
  | cons y ys ih => exact ih y

/-- Parents other than the old parent of the detached node keep their child
chains untouched. -/
theorem goodParent_detach_other (fuel n : Nat) (t : TreeState) (hinv : TreeInv t)
    (q : Nat) (hq : (t.nodes n).parent ≠ some q) :
    ∃ l, GoodParent (detach fuel n t) q l ∧
      ∀ x, ((detach fuel n t).nodes x).parent = some q → x ∈ l := by
  obtain ⟨lq, hgp, hclo⟩ := hinv.child q
  obtain ⟨hfc, hlc, hnd, hcs⟩ := hgp
  refine ⟨lq, ⟨?_, ?_, hnd, ?_⟩, ?_⟩
  · rw [detach_firstChild, if_neg (fun hcond => hq hcond.2)]
    exact hfc
  · rw [detach_lastChild, if_neg (fun hcond => hq hcond.2)]
    exact hlc
  · apply chainSeg_congr t _ (some q) lq none none _ hcs
    intro x hxl
    have hxpar : (t.nodes x).parent = some q :=
      chainSeg_parent_of_mem t _ lq none none hcs x hxl
    have hxn : x ≠ n := fun he => hq (he ▸ hxpar)
    have hprev : ((detach fuel n t).nodes x).prev = (t.nodes x).prev := by
      rw [detach_prev_ne fuel n t x hxn]
      refine if_neg (fun hnx => ?_)
      have hxprev : (t.nodes x).prev = some n := (hinv.conv n x).mp hnx
      have hmem : n ∈ lq := chainSeg_prev_of_mem t _ lq none x n hcs hxl hxprev
      exact hq (chainSeg_parent_of_mem t _ lq none none hcs n hmem)
    have hnext : ((detach fuel n t).nodes x).next = (t.nodes x).next := by
      rw [detach_next_ne fuel n t x hxn]
      refine if_neg (fun hpv => ?_)
      have hxnext : (t.nodes x).next = some n := (hinv.conv x n).mpr hpv
      have hmem : n ∈ lq := chainSeg_next_of_mem t _ lq none x n hcs hxl hxnext
      exact hq (chainSeg_parent_of_mem t _ lq none none hcs n hmem)
    have hpar : ((detach fuel n t).nodes x).parent = (t.nodes x).parent :=
      detach_parent_ne fuel n t x hxn
    simp [chainLinks, hprev, hnext, hpar]
  · intro x hx
    by_cases hxn : x = n
    · exfalso
      rw [hxn, (detach_node_fields fuel n t).2.2] at hx
      cases hx
    · rw [detach_parent_ne fuel n t x hxn] at hx
      exact hclo x hx

/-- The old parent of the detached node ends up with its child chain minus
the detached node. -/
theorem goodParent_detach_self (fuel n : Nat) (t : TreeState) (hinv : TreeInv t)
    (p : Nat) (hpa : (t.nodes n).parent = some p) :
    ∃ l, GoodParent (detach fuel n t) p l ∧
      ∀ x, ((detach fuel n t).nodes x).parent = some p → x ∈ l := by
  obtain ⟨lp, hgp, hclo⟩ := hinv.child p
  obtain ⟨hfc, hlc, hnd, hcs⟩ := hgp
  have hmem : n ∈ lp := hclo n hpa
  obtain ⟨l1, l2, rfl⟩ := List.append_of_mem hmem
  have hnd2 := hnd
  rw [List.nodup_append] at hnd2
  obtain ⟨hnd1, hndc, hdisj⟩ := hnd2
  rw [List.nodup_cons] at hndc
  obtain ⟨hnotl2, hndl2⟩ := hndc
  have hnotl1 : n ∉ l1 := fun h => hdisj h (List.mem_cons_self _ _)
  have hdisj12 : ∀ a ∈ l1, a ∉ l2 := fun a ha hb => hdisj ha (List.mem_cons_of_mem _ hb)
  obtain ⟨hseg1, hseg2⟩ := (chainSeg_append t (some p) l1 (n :: l2) none none).mp hcs
  obtain ⟨hnprev, hnpar, hnnext, hseg3⟩ := hseg2
  have hprev_mem : ∀ x, (t.nodes n).prev = some x → x ∈ l1 := fun x h =>
    lastOr_mem l1 x (hnprev.symm.trans h)
  have hnext_mem : ∀ x, (t.nodes n).next = some x → x ∈ l2 := fun x h =>
    headOr_mem l2 x (hnnext.symm.trans h)
  have hstable : ∀ x, x ∈ l1 ++ l2 → ((t.nodes n).prev ≠ some x) →
      ((t.nodes n).next ≠ some x) →
      chainLinks ((detach fuel n t).nodes x) = chainLinks (t.nodes x) := by
    intro x hxm h1 h2
    have hxn : x ≠ n := by
      intro he
      subst he
      rcases List.mem_append.mp hxm with h | h
      · exact hnotl1 h
      · exact hnotl2 h
    have e1 : ((detach fuel n t).nodes x).prev = (t.nodes x).prev := by
      rw [detach_prev_ne fuel n t x hxn]; exact if_neg h2
    have e2 : ((detach fuel n t).nodes x).next = (t.nodes x).next := by
      rw [detach_next_ne fuel n t x hxn]; exact if_neg h1
    have e3 := detach_parent_ne fuel n t x hxn
    simp [chainLinks, e1, e2, e3]
  refine ⟨l1 ++ l2, ⟨?_, ?_, ?_, ?_⟩, ?_⟩
  · -- firstChild anchor
    rw [detach_firstChild]
    cases l1 with
    | nil =>
      rw [if_pos ⟨hnprev, hpa⟩, hnnext]
      rfl
    | cons c l1t =>
      rw [if_neg (fun hcond => lastOr_some_ne l1t c (hnprev.symm.trans hcond.1))]
      exact hfc
  · -- lastChild anchor
    rw [detach_lastChild]
    cases hl2 : l2 with
    | nil =>
      subst hl2
      rw [if_pos ⟨hnnext, hpa⟩, hnprev, List.append_nil]
    | cons b l2t =>
      subst hl2
      rw [if_neg (fun hcond => by
        have : (t.nodes n).next = some b := hnnext
        rw [hcond.1] at this
        cases this)]
      rw [hlc, lastOr_append, lastOr_append]
      rfl
  · -- nodup
    rw [List.nodup_append]
    exact ⟨hnd1, hndl2, fun a ha hb => hdisj12 a ha hb⟩
  · -- the chain itself
    refine (chainSeg_append _ (some p) l1 l2 none none).mpr ⟨?_, ?_⟩
    · -- left part, retargeted to the head of l2
      rcases List.eq_nil_or_concat l1 with rfl | ⟨L, a, hLa⟩
      · trivial
      · rw [List.concat_eq_append] at hLa
        subst hLa
        obtain ⟨hL, hA⟩ :=
          (chainSeg_append t (some p) L [a] none (headOr none (n :: l2))).mp hseg1
        obtain ⟨ha_prev, ha_par, ha_next, -⟩ := hA
        have hnprev_a : (t.nodes n).prev = some a := by
          rw [hnprev, lastOr_append]
          rfl
        have ha_ne : a ≠ n := fun he => hnotl1 (he ▸ List.mem_append.mpr
          (Or.inr (List.mem_cons_self _ _)))
        refine (chainSeg_append _ (some p) L [a] none (headOr none l2)).mpr ⟨?_, ?_⟩
        · -- the untouched prefix L
          apply chainSeg_congr t _ (some p) L none _ _ hL
          intro x hxL
          apply hstable x (List.mem_append.mpr (Or.inl (List.mem_append.mpr (Or.inl hxL))))
          · intro hpv
            have h2 : some a = some x := hnprev_a.symm.trans hpv
            injection h2 with h3
            have haL : a ∈ L := by rw [h3]; exact hxL
            exact (List.nodup_append.mp hnd1).2.2 haL (List.mem_cons_self _ _)
          · intro hnx
            have hx2 : x ∈ l2 := hnext_mem x hnx
            exact hdisj12 x (List.mem_append.mpr (Or.inl hxL)) hx2
        · -- the retargeted last element a
          refine ⟨?_, ?_, ?_, trivial⟩
          · rw [detach_prev_ne fuel n t a ha_ne]
            rw [if_neg (fun hnx => hdisj12 a (List.mem_append.mpr
              (Or.inr (List.mem_cons_self _ _))) (hnext_mem a hnx))]
            exact ha_prev
          · rw [detach_parent_ne fuel n t a ha_ne]
            exact ha_par
          · rw [detach_next_ne fuel n t a ha_ne, if_pos hnprev_a]
            exact hnnext
    · -- right part, head of l2 repointed to the end of l1
      cases hl2 : l2 with
      | nil => trivial
      | cons b l2t =>
        subst hl2
        obtain ⟨hb_prev, hb_par, hb_next, hsegt⟩ := hseg3
        have hb_ne : b ≠ n := fun he => hnotl2 (he ▸ List.mem_cons_self _ _)
        refine ⟨?_, ?_, ?_, ?_⟩
        · have hnb : (t.nodes n).next = some b := hnnext
          rw [detach_prev_ne fuel n t b hb_ne, if_pos hnb]
          exact hnprev
        · rw [detach_parent_ne fuel n t b hb_ne]
          exact hb_par
        · rw [detach_next_ne fuel n t b hb_ne]
          rw [if_neg (fun hpv => hdisj12 b (hprev_mem b hpv) (List.mem_cons_self _ _))]
          exact hb_next
        · apply chainSeg_congr t _ (some p) l2t (some b) none _ hsegt
          intro x hxt
          apply hstable x (List.mem_append.mpr (Or.inr (List.mem_cons_of_mem _ hxt)))
          · intro hpv
            exact hdisj12 x (hprev_mem x hpv) (List.mem_cons_of_mem _ hxt)
          · intro hnx
            have hxb : x = b := by
              have := hnnext.symm.trans hnx
              injection this with h2
              exact h2.symm
            subst hxb
            exact (List.nodup_cons.mp hndl2).1 hxt
  · -- closure
    intro x hx
    by_cases hxn : x = n
    · exfalso
      rw [hxn, (detach_node_fields fuel n t).2.2] at hx
      cases hx
    · rw [detach_parent_ne fuel n t x hxn] at hx
      have hxlp : x ∈ l1 ++ n :: l2 := hclo x hx
      rcases List.mem_append.mp hxlp with h | h
      · exact List.mem_append.mpr (Or.inl h)
      · rcases List.mem_cons.mp h with h2 | h2
        · exact absurd h2 hxn
        · exact List.mem_append.mpr (Or.inr h2)

/-- Element::detach preserves the tree invariant. -/
theorem treeInv_detach (fuel n : Nat) (t : TreeState) (hinv : TreeInv t) :
    TreeInv (detach fuel n t) := by
  refine ⟨detach_conv fuel n t hinv.conv, ?_⟩
  intro q
  by_cases hq : (t.nodes n).parent = some q
  · exact goodParent_detach_self fuel n t hinv q hq
  · exact goodParent_detach_other fuel n t hinv q hq

/-! Field descriptions for insert_after, in terms of the state right after
the initial detach of the inserted element. -/

theorem insertAfter_next (fuel s x : Nat) (t : TreeState) (m : Nat) :
    ((insertAfter fuel s x t).nodes m).next
      = if m = s then some x
        else if m = x then ((detach fuel x t).nodes s).next
        else ((detach fuel x t).nodes m).next := by
  rcases hso : ((detach fuel x t).nodes s).next with _ | b <;>
    rcases hpa : ((detach fuel x t).nodes s).parent with _ | p <;>
      simp [insertAfter, hso, hpa] <;>
        split_ifs <;> subst_vars <;> first | rfl | simp_all

theorem insertAfter_prev (fuel s x : Nat) (t : TreeState) (m : Nat)
    (hso : ((detach fuel x t).nodes s).next ≠ some x) :
    ((insertAfter fuel s x t).nodes m).prev
      = if m = x then some s
        else if ((detach fuel x t).nodes s).next = some m then some x
        else ((detach fuel x t).nodes m).prev := by
  rcases hso2 : ((detach fuel x t).nodes s).next with _ | b <;>
    rcases hpa : ((detach fuel x t).nodes s).parent with _ | p <;>
      rw [hso2] at hso <;>
        simp [insertAfter, hso2, hpa] <;>
          split_ifs <;> subst_vars <;> first | rfl | simp_all

theorem insertAfter_parent (fuel s x : Nat) (t : TreeState) (m : Nat) :
    ((insertAfter fuel s x t).nodes m).parent
      = if m = x then ((detach fuel x t).nodes s).parent
        else ((detach fuel x t).nodes m).parent := by
  rcases hso : ((detach fuel x t).nodes s).next with _ | b <;>
    rcases hpa : ((detach fuel x t).nodes s).parent with _ | p <;>
      simp [insertAfter, hso, hpa] <;>
        split_ifs <;> subst_vars <;> first | rfl | simp_all

theorem insertAfter_firstChild (fuel s x : Nat) (t : TreeState) (m : Nat) :
    ((insertAfter fuel s x t).nodes m).firstChild
      = ((detach fuel x t).nodes m).firstChild := by
  rcases hso : ((detach fuel x t).nodes s).next with _ | b <;>
    rcases hpa : ((detach fuel x t).nodes s).parent with _ | p <;>
      simp [insertAfter, hso, hpa]

theorem insertAfter_lastChild (fuel s x : Nat) (t : TreeState) (m : Nat) :
    ((insertAfter fuel s x t).nodes m).lastChild
      = if ((detach fuel x t).nodes s).next = none
            ∧ ((detach fuel x t).nodes s).parent = some m then some x
        else ((detach fuel x t).nodes m).lastChild := by
  rcases hso : ((detach fuel x t).nodes s).next with _ | b <;>
    rcases hpa : ((detach fuel x t).nodes s).parent with _ | p <;>
      simp [insertAfter, hso, hpa] <;>
        split_ifs <;> subst_vars <;> first | rfl | simp_all

/-! Field descriptions for add_child, in terms of the state right after the
initial detach of the child. -/

theorem addChild_prev (fuel p c : Nat) (t : TreeState) (m : Nat) :
    ((addChild fuel p c t).nodes m).prev
      = if m = c then ((detach fuel c t).nodes p).lastChild
        else ((detach fuel c t).nodes m).prev := by
  rcases hlc : ((detach fuel c t).nodes p).lastChild with _ | w <;>
    simp [addChild, hlc] <;>
      split_ifs <;> subst_vars <;> first | rfl | simp_all

theorem addChild_next (fuel p c : Nat) (t : TreeState) (m : Nat)
    (hlc : ((detach fuel c t).nodes p).lastChild ≠ some c) :
    ((addChild fuel p c t).nodes m).next
      = if m = c then none
        else if ((detach fuel c t).nodes p).lastChild = some m then some c
        else ((detach fuel c t).nodes m).next := by
  rcases hlc2 : ((detach fuel c t).nodes p).lastChild with _ | w <;>
    rw [hlc2] at hlc <;>
      simp [addChild, hlc2] <;>
        split_ifs <;> subst_vars <;> first | rfl | simp_all

theorem addChild_parent (fuel p c : Nat) (t : TreeState) (m : Nat) :
    ((addChild fuel p c t).nodes m).parent
      = if m = c then some p else ((detach fuel c t).nodes m).parent := by
  rcases hlc : ((detach fuel c t).nodes p).lastChild with _ | w <;>
    simp [addChild, hlc] <;>
      split_ifs <;> subst_vars <;> first | rfl | simp_all

theorem addChild_firstChild (fuel p c : Nat) (t : TreeState) (m : Nat) :
    ((addChild fuel p c t).nodes m).firstChild
      = if m = p ∧ ((detach fuel c t).nodes p).lastChild = none then some c
        else ((detach fuel c t).nodes m).firstChild := by
  rcases hlc : ((detach fuel c t).nodes p).lastChild with _ | w <;>
    simp [addChild, hlc] <;>
      split_ifs <;> subst_vars <;> first | rfl | simp_all

theorem addChild_lastChild (fuel p c : Nat) (t : TreeState) (m : Nat) :
    ((addChild fuel p c t).nodes m).lastChild
      = if m = p then some c else ((detach fuel c t).nodes m).lastChild := by
  rcases hlc : ((detach fuel c t).nodes p).lastChild with _ | w <;>
    simp [addChild, hlc] <;>
      split_ifs <;> subst_vars <;> first | rfl | simp_all

/-- No node points at the freshly detached element. -/
theorem detach_no_next_to (fuel x : Nat) (t : TreeState) (hinv0 : TreeInv (detach fuel x t)) :
    ∀ y, ((detach fuel x t).nodes y).next ≠ some x := by
  intro y h
  have h2 := (hinv0.conv y x).mp h
  rw [(detach_node_fields fuel x t).1] at h2
  cases h2

theorem detach_no_prev_to (fuel x : Nat) (t : TreeState) (hinv0 : TreeInv (detach fuel x t)) :
    ∀ y, ((detach fuel x t).nodes y).prev ≠ some x := by
  intro y h
  have h2 := (hinv0.conv x y).mpr h
  rw [(detach_node_fields fuel x t).2.1] at h2
  cases h2

/-- insert_after preserves the converse relation between next and prev. -/
theorem insertAfter_conv (fuel s x : Nat) (t : TreeState)
    (hinv0 : TreeInv (detach fuel x t)) :
    ∀ u y, ((insertAfter fuel s x t).nodes u).next = some y
      ↔ ((insertAfter fuel s x t).nodes y).prev = some u := by
  have hconv := hinv0.conv
  have hnoxn := detach_no_next_to fuel x t hinv0
  have hnoxp := detach_no_prev_to fuel x t hinv0
  have hxn2 : ((detach fuel x t).nodes x).next = none := (detach_node_fields fuel x t).2.1
  intro u y
  rw [insertAfter_next, insertAfter_prev _ _ _ _ _ (hnoxn s)]
  by_cases hus : u = s
  · rw [if_pos hus]
    by_cases hyx : y = x
    · rw [if_pos hyx, hyx, hus]
      exact iff_of_true rfl rfl
    · rw [if_neg hyx]
      refine iff_of_false (fun h => ?_) ?_
      · injection h with h2
        exact hyx h2.symm
      · by_cases hsoy : ((detach fuel x t).nodes s).next = some y
        · rw [if_pos hsoy]
          intro h
          injection h with h2
          have hsx : s = x := (h2.trans hus).symm
          rw [hsx, hxn2] at hsoy
          cases hsoy
        · rw [if_neg hsoy]
          intro h
          rw [hus] at h
          exact hsoy ((hconv s y).mpr h)
  · rw [if_neg hus]
    by_cases hux : u = x
    · rw [if_pos hux]
      by_cases hyx : y = x
      · refine iff_of_false (fun h => ?_) (fun h => ?_)
        · rw [hyx] at h
          exact hnoxn s h
        · rw [if_pos hyx] at h
          injection h with h2
          exact hus h2.symm
      · by_cases hsoy : ((detach fuel x t).nodes s).next = some y
        · rw [if_neg hyx, if_pos hsoy, hux]
          exact iff_of_true hsoy rfl
        · rw [if_neg hyx, if_neg hsoy]
          refine iff_of_false hsoy (fun h => ?_)
          rw [hux] at h
          exact hnoxp y h
    · rw [if_neg hux]
      by_cases hyx : y = x
      · rw [if_pos hyx]
        refine iff_of_false (fun h => ?_) (fun h => ?_)
        · rw [hyx] at h
          exact hnoxn u h
        · injection h with h2
          exact hus h2.symm
      · rw [if_neg hyx]
        by_cases hsoy : ((detach fuel x t).nodes s).next = some y
        · rw [if_pos hsoy]
          refine iff_of_false (fun h => ?_) (fun h => ?_)
          · have h1 := (hconv u y).mp h
            have h2 := (hconv s y).mp hsoy
            rw [h1] at h2
            injection h2 with h3
            exact hus h3
          · injection h with h2
            exact hux h2.symm
        · rw [if_neg hsoy]
          exact hconv u y

/-- The last element of a chain segment carries the segment's outgoing next
pointer. -/
theorem chainSeg_lastOr_next (t : TreeState) (p : Option Nat) :
    ∀ (l : List Nat) (pr nx : Option Nat) (w : Nat), ChainSeg t p pr nx l →
      lastOr none l = some w → (t.nodes w).next = nx := by
  intro l
  induction l with
  | nil => intro pr nx w _ h; cases h
  | cons y ys ih =>
    intro pr nx w hc hl
    obtain ⟨h1, h2, h3, h4⟩ := hc
    cases ys with
    | nil =>
      simp only [lastOr] at hl
      injection hl with h5
      subst h5
      exact h3
    | cons z zs =>
      exact ih (some y) nx w h4 hl

theorem nodup_insert_middle (l1 l2 : List Nat) (s x : Nat)
    (hnd : (l1 ++ s :: l2).Nodup) (hx : x ∉ l1 ++ s :: l2) :
    (l1 ++ s :: x :: l2).Nodup := by
  simp only [List.nodup_append, List.nodup_cons, List.mem_cons, List.mem_append,
    List.disjoint_left, List.mem_cons] at hnd hx ⊢
  obtain ⟨hndl1, ⟨hsl2, hndl2⟩, hdisj⟩ := hnd
  push_neg at hx
  refine ⟨hndl1, ⟨?_, ?_, hndl2⟩, ?_⟩
  · rintro (rfl | hs2)
    · exact hx.2.1 rfl
    · exact hsl2 hs2
  · exact fun hx2 => hx.2.2 hx2
  · intro a ha
    have h2 := hdisj ha
    push_neg at h2
    push_neg
    exact ⟨h2.1, fun he => hx.1 (he ▸ ha), h2.2⟩

/-- Parents other than the (new) parent of the inserted node keep their child
chains untouched by insert_after. -/
theorem goodParent_insertAfter_other (fuel s x : Nat) (t : TreeState)
    (hinv0 : TreeInv (detach fuel x t)) (q : Nat)
    (hq : ((detach fuel x t).nodes s).parent ≠ some q) :
    ∃ l, GoodParent (insertAfter fuel s x t) q l ∧
      ∀ z, ((insertAfter fuel s x t).nodes z).parent = some q → z ∈ l := by
  obtain ⟨lq, ⟨hfc, hlc, hnd, hcs⟩, hclo⟩ := hinv0.child q
  have hxpar : ((detach fuel x t).nodes x).parent = none := (detach_node_fields fuel x t).2.2
  have hnoxn := detach_no_next_to fuel x t hinv0
  refine ⟨lq, ⟨?_, ?_, hnd, ?_⟩, ?_⟩
  · rw [insertAfter_firstChild]
    exact hfc
  · rw [insertAfter_lastChild, if_neg (fun hcond => hq hcond.2)]
    exact hlc
  · apply chainSeg_congr (detach fuel x t) _ (some q) lq none none _ hcs
    intro y hyl
    have hypar : ((detach fuel x t).nodes y).parent = some q :=
      chainSeg_parent_of_mem _ _ lq none none hcs y hyl
    have hyx : y ≠ x := fun he => by rw [he, hxpar] at hypar; cases hypar
    have hys : y ≠ s := fun he => hq (he ▸ hypar)
    have hsny : ((detach fuel x t).nodes s).next ≠ some y := by
      intro hsn
      have hyprev : ((detach fuel x t).nodes y).prev = some s := (hinv0.conv s y).mp hsn
      have hmem : s ∈ lq := chainSeg_prev_of_mem _ _ lq none y s hcs hyl hyprev
      exact hq (chainSeg_parent_of_mem _ _ lq none none hcs s hmem)
    have hprev : ((insertAfter fuel s x t).nodes y).prev
        = ((detach fuel x t).nodes y).prev := by
      rw [insertAfter_prev _ _ _ _ _ (hnoxn s), if_neg hyx, if_neg hsny]
    have hnext : ((insertAfter fuel s x t).nodes y).next
        = ((detach fuel x t).nodes y).next := by
      rw [insertAfter_next, if_neg hys, if_neg hyx]
    have hpar : ((insertAfter fuel s x t).nodes y).parent
        = ((detach fuel x t).nodes y).parent := by
      rw [insertAfter_parent, if_neg hyx]
    simp [chainLinks, hprev, hnext, hpar]
  · intro z hz
    rw [insertAfter_parent] at hz
    by_cases hzx : z = x
    · rw [if_pos hzx] at hz
      exact absurd hz hq
    · rw [if_neg hzx] at hz
      exact hclo z hz

/-- The parent of `s` ends up with its child chain extended by the inserted
node `x` right after `s`. -/
theorem goodParent_insertAfter_self (fuel s x : Nat) (t : TreeState)
    (hinv0 : TreeInv (detach fuel x t)) (p : Nat)
    (hpa : ((detach fuel x t).nodes s).parent = some p) :
    ∃ l, GoodParent (insertAfter fuel s x t) p l ∧
      ∀ z, ((insertAfter fuel s x t).nodes z).parent = some p → z ∈ l := by
  obtain ⟨lp, ⟨hfc, hlc, hnd, hcs⟩, hclo⟩ := hinv0.child p
  have hxpar : ((detach fuel x t).nodes x).parent = none := (detach_node_fields fuel x t).2.2
  have hnoxn := detach_no_next_to fuel x t hinv0
  have hsx : s ≠ x := fun he => by rw [he, hxpar] at hpa; cases hpa
  have hsmem : s ∈ lp := hclo s hpa
  obtain ⟨l1, l2, hsplit⟩ := List.append_of_mem hsmem
  subst hsplit
  have hxlp : x ∉ l1 ++ s :: l2 := fun hx => by
    have h2 := chainSeg_parent_of_mem _ _ _ none none hcs x hx
    rw [hxpar] at h2
    cases h2
  obtain ⟨hcsL1, hcsS⟩ :=
    (chainSeg_append (detach fuel x t) (some p) l1 (s :: l2) none none).mp hcs
  obtain ⟨hsprev, hspar2, hsnext, hcsL2⟩ := hcsS
  obtain ⟨hndl1, hndsl2, hdisj⟩ := List.nodup_append.mp hnd
  obtain ⟨hsnotl2, hndl2⟩ := List.nodup_cons.mp hndsl2
  have hsnotl1 : s ∉ l1 := fun hs => (hdisj hs) (List.mem_cons_self _ _)
  refine ⟨l1 ++ s :: x :: l2, ⟨?_, ?_, ?_, ?_⟩, ?_⟩
  · rw [insertAfter_firstChild, hfc, headOr_append, headOr_append]
    rfl
  · rw [insertAfter_lastChild]
    cases l2 with
    | nil =>
      rw [if_pos ⟨hsnext, hpa⟩]
      simp [lastOr_append, lastOr]
    | cons b l2t =>
      rw [if_neg (fun hcond => by rw [hsnext] at hcond; cases hcond.1)]
      rw [hlc]
      simp [lastOr_append, lastOr]
  · exact nodup_insert_middle l1 l2 s x hnd hxlp
  · apply (chainSeg_append (insertAfter fuel s x t) (some p) l1 (s :: x :: l2) none none).mpr
    constructor
    · apply chainSeg_congr (detach fuel x t) _ (some p) l1 none _ _ hcsL1
      intro y hyl
      have hyx : y ≠ x := fun he => hxlp (he ▸ List.mem_append_left _ hyl)
      have hys : y ≠ s := fun he => hsnotl1 (he ▸ hyl)
      have hsny : ((detach fuel x t).nodes s).next ≠ some y := by
        intro hsn
        rw [hsnext] at hsn
        exact (hdisj hyl) (List.mem_cons_of_mem _ (headOr_mem l2 y hsn))
      have hprev : ((insertAfter fuel s x t).nodes y).prev
          = ((detach fuel x t).nodes y).prev := by
        rw [insertAfter_prev _ _ _ _ _ (hnoxn s), if_neg hyx, if_neg hsny]
      have hnext : ((insertAfter fuel s x t).nodes y).next
          = ((detach fuel x t).nodes y).next := by
        rw [insertAfter_next, if_neg hys, if_neg hyx]
      have hpar : ((insertAfter fuel s x t).nodes y).parent
          = ((detach fuel x t).nodes y).parent := by
        rw [insertAfter_parent, if_neg hyx]
      simp [chainLinks, hprev, hnext, hpar]
    · refine ⟨?_, ?_, ?_, ?_, ?_, ?_, ?_⟩
      · rw [insertAfter_prev _ _ _ _ _ (hnoxn s), if_neg hsx]
        have hsns : ((detach fuel x t).nodes s).next ≠ some s := by
          intro hsn
          rw [hsnext] at hsn
          exact hsnotl2 (headOr_mem l2 s hsn)
        rw [if_neg hsns]
        exact hsprev
      · rw [insertAfter_parent, if_neg hsx]
        exact hpa
      · rw [insertAfter_next, if_pos rfl]
        rfl
      · rw [insertAfter_prev _ _ _ _ _ (hnoxn s), if_pos rfl]
      · rw [insertAfter_parent, if_pos rfl]
        exact hpa
      · rw [insertAfter_next, if_neg (fun he => hsx he.symm), if_pos rfl]
        exact hsnext
      · cases l2 with
        | nil => trivial
        | cons b l2t =>
          obtain ⟨hbprev, hbpar, hbnext, hcsT⟩ := hcsL2
          have hbx : b ≠ x := fun he =>
            hxlp (he ▸ List.mem_append_right _ (List.mem_cons_of_mem _ (List.mem_cons_self _ _)))
          have hbs : b ≠ s := fun he => hsnotl2 (he ▸ List.mem_cons_self _ _)
          have hsnb : ((detach fuel x t).nodes s).next = some b := hsnext
          obtain ⟨hbnotl2t, hndl2t⟩ := List.nodup_cons.mp hndl2
          refine ⟨?_, ?_, ?_, ?_⟩
          · rw [insertAfter_prev _ _ _ _ _ (hnoxn s), if_neg hbx, if_pos hsnb]
          · rw [insertAfter_parent, if_neg hbx]
            exact hbpar
          · rw [insertAfter_next, if_neg hbs, if_neg hbx]
            exact hbnext
          · apply chainSeg_congr (detach fuel x t) _ (some p) l2t (some b) none _ hcsT
            intro y hyl
            have hyx : y ≠ x := fun he =>
              hxlp (he ▸ List.mem_append_right _
                (List.mem_cons_of_mem _ (List.mem_cons_of_mem _ hyl)))
            have hys : y ≠ s := fun he => hsnotl2 (he ▸ List.mem_cons_of_mem _ hyl)
            have hsny : ((detach fuel x t).nodes s).next ≠ some y := by
              intro hsn
              rw [hsnb] at hsn
              injection hsn with h2
              exact hbnotl2t (h2 ▸ hyl)
            have hprev : ((insertAfter fuel s x t).nodes y).prev
                = ((detach fuel x t).nodes y).prev := by
              rw [insertAfter_prev _ _ _ _ _ (hnoxn s), if_neg hyx, if_neg hsny]
            have hnext : ((insertAfter fuel s x t).nodes y).next
                = ((detach fuel x t).nodes y).next := by
              rw [insertAfter_next, if_neg hys, if_neg hyx]
            have hpar : ((insertAfter fuel s x t).nodes y).parent
                = ((detach fuel x t).nodes y).parent := by
              rw [insertAfter_parent, if_neg hyx]
            simp [chainLinks, hprev, hnext, hpar]
  · intro z hz
    rw [insertAfter_parent] at hz
    by_cases hzx : z = x
    · subst hzx
      exact List.mem_append_right _ (List.mem_cons_of_mem _ (List.mem_cons_self _ _))
    · rw [if_neg hzx] at hz
      have hzl := hclo z hz
      rcases List.mem_append.mp hzl with h2 | h2
      · exact List.mem_append_left _ h2
      · rcases List.mem_cons.mp h2 with rfl | h3
        · exact List.mem_append_right _ (List.mem_cons_self _ _)
        · exact List.mem_append_right _
            (List.mem_cons_of_mem _ (List.mem_cons_of_mem _ h3))

/-- insert_after preserves the global tree invariant. -/
theorem treeInv_insertAfter (fuel s x : Nat) (t : TreeState) (hinv : TreeInv t) :
    TreeInv (insertAfter fuel s x t) := by
  have hinv0 := treeInv_detach fuel x t hinv
  refine ⟨insertAfter_conv fuel s x t hinv0, ?_⟩
  intro q
  by_cases hq : ((detach fuel x t).nodes s).parent = some q
  · exact goodParent_insertAfter_self fuel s x t hinv0 q hq
  · exact goodParent_insertAfter_other fuel s x t hinv0 q hq

/-- No node's last-child pointer designates the freshly detached node. -/
theorem detach_no_lastChild_to (fuel c : Nat) (t : TreeState)
    (hinv0 : TreeInv (detach fuel c t)) :
    ∀ p, ((detach fuel c t).nodes p).lastChild ≠ some c := by
  intro p h
  obtain ⟨lp, ⟨hfc2, hlc2, _, hcs2⟩, _⟩ := hinv0.child p
  rw [hlc2] at h
  have hmem := lastOr_mem lp c h
  have h2 := chainSeg_parent_of_mem _ _ lp none none hcs2 c hmem
  rw [(detach_node_fields fuel c t).2.2] at h2
  cases h2

theorem nodup_snoc (l : List Nat) (c : Nat) (hnd : l.Nodup) (hc : c ∉ l) :
    (l ++ [c]).Nodup := by
  simp only [List.nodup_append, List.nodup_cons, List.not_mem_nil, not_false_iff,
    List.nodup_nil, and_true, true_and, List.disjoint_left, List.mem_cons,
    List.not_mem_nil, or_false]
  exact ⟨hnd, fun a ha he => hc (he ▸ ha)⟩

/-- add_child preserves the converse relation between next and prev. -/
theorem addChild_conv (fuel p c : Nat) (t : TreeState)
    (hinv0 : TreeInv (detach fuel c t)) :
    ∀ u y, ((addChild fuel p c t).nodes u).next = some y
      ↔ ((addChild fuel p c t).nodes y).prev = some u := by
  have hconv := hinv0.conv
  have hnocn := detach_no_next_to fuel c t hinv0
  have hnocp := detach_no_prev_to fuel c t hinv0
  have hlcnc := detach_no_lastChild_to fuel c t hinv0 p
  intro u y
  rw [addChild_next _ _ _ _ _ hlcnc, addChild_prev]
  by_cases huc : u = c
  · rw [if_pos huc]
    by_cases hyc : y = c
    · rw [if_pos hyc]
      exact iff_of_false (fun h => by cases h) (fun h => hlcnc (huc ▸ h))
    · rw [if_neg hyc]
      exact iff_of_false (fun h => by cases h) (fun h => hnocp y (huc ▸ h))
  · rw [if_neg huc]
    by_cases hlcu : ((detach fuel c t).nodes p).lastChild = some u
    · rw [if_pos hlcu]
      have hulast : ((detach fuel c t).nodes u).next = none := by
        obtain ⟨lp, ⟨hfc2, hlc2, _, hcs2⟩, _⟩ := hinv0.child p
        rw [hlc2] at hlcu
        exact chainSeg_lastOr_next _ _ lp none none u hcs2 hlcu
      by_cases hyc : y = c
      · rw [if_pos hyc, hyc]
        exact iff_of_true rfl hlcu
      · rw [if_neg hyc]
        refine iff_of_false (fun h => ?_) (fun h => ?_)
        · injection h with h2
          exact hyc h2.symm
        · have h2 := (hconv u y).mpr h
          rw [hulast] at h2
          cases h2
    · rw [if_neg hlcu]
      by_cases hyc : y = c
      · rw [if_pos hyc]
        exact iff_of_false (fun h => hnocn u (hyc ▸ h)) hlcu
      · rw [if_neg hyc]
        exact hconv u y

/-- Parents other than the receiving parent keep their child chains
untouched by add_child. -/
theorem goodParent_addChild_other (fuel p c : Nat) (t : TreeState)
    (hinv0 : TreeInv (detach fuel c t)) (q : Nat) (hq : q ≠ p) :
    ∃ l, GoodParent (addChild fuel p c t) q l ∧
      ∀ z, ((addChild fuel p c t).nodes z).parent = some q → z ∈ l := by
  obtain ⟨lq, ⟨hfc, hlc, hnd, hcs⟩, hclo⟩ := hinv0.child q
  have hcpar : ((detach fuel c t).nodes c).parent = none := (detach_node_fields fuel c t).2.2
  have hlcnc := detach_no_lastChild_to fuel c t hinv0 p
  refine ⟨lq, ⟨?_, ?_, hnd, ?_⟩, ?_⟩
  · rw [addChild_firstChild, if_neg (fun hcond => hq hcond.1)]
    exact hfc
  · rw [addChild_lastChild, if_neg hq]
    exact hlc
  · apply chainSeg_congr (detach fuel c t) _ (some q) lq none none _ hcs
    intro y hyl
    have hypar : ((detach fuel c t).nodes y).parent = some q :=
      chainSeg_parent_of_mem _ _ lq none none hcs y hyl
    have hyc : y ≠ c := fun he => by rw [he, hcpar] at hypar; cases hypar
    have hlcy : ((detach fuel c t).nodes p).lastChild ≠ some y := by
      intro h
      obtain ⟨lp, ⟨hfc2, hlc2, _, hcs2⟩, _⟩ := hinv0.child p
      rw [hlc2] at h
      have hmem := lastOr_mem lp y h
      have h2 := chainSeg_parent_of_mem _ _ lp none none hcs2 y hmem
      rw [hypar] at h2
      injection h2 with h3
      exact hq h3
    have hprev : ((addChild fuel p c t).nodes y).prev
        = ((detach fuel c t).nodes y).prev := by
      rw [addChild_prev, if_neg hyc]
    have hnext : ((addChild fuel p c t).nodes y).next
        = ((detach fuel c t).nodes y).next := by
      rw [addChild_next _ _ _ _ _ hlcnc, if_neg hyc, if_neg hlcy]
    have hpar : ((addChild fuel p c t).nodes y).parent
        = ((detach fuel c t).nodes y).parent := by
      rw [addChild_parent, if_neg hyc]
    simp [chainLinks, hprev, hnext, hpar]
  · intro z hz
    rw [addChild_parent] at hz
    by_cases hzc : z = c
    · rw [if_pos hzc] at hz
      injection hz with h2
      exact absurd h2.symm hq
    · rw [if_neg hzc] at hz
      exact hclo z hz

/-- The receiving parent ends up with its child chain extended by the new
child at the end. -/
theorem goodParent_addChild_self (fuel p c : Nat) (t : TreeState)
    (hinv0 : TreeInv (detach fuel c t)) :
    ∃ l, GoodParent (addChild fuel p c t) p l ∧
      ∀ z, ((addChild fuel p c t).nodes z).parent = some p → z ∈ l := by
  obtain ⟨lp, ⟨hfc, hlc, hnd, hcs⟩, hclo⟩ := hinv0.child p
  have hcpar : ((detach fuel c t).nodes c).parent = none := (detach_node_fields fuel c t).2.2
  have hlcnc := detach_no_lastChild_to fuel c t hinv0 p
  have hclp : c ∉ lp := fun hmem => by
    have h2 := chainSeg_parent_of_mem _ _ lp none none hcs c hmem
    rw [hcpar] at h2
    cases h2
  refine ⟨lp ++ [c], ⟨?_, ?_, nodup_snoc lp c hnd hclp, ?_⟩, ?_⟩
  · rw [addChild_firstChild]
    cases lp with
    | nil =>
      rw [if_pos ⟨rfl, by rw [hlc]; rfl⟩]
      rfl
    | cons w lpt =>
      rw [if_neg (fun hcond => lastOr_some_ne lpt w (hlc ▸ hcond.2))]
      rw [hfc]
      rfl
  · rw [addChild_lastChild, if_pos rfl]
    simp [lastOr_append, lastOr]
  · apply (chainSeg_append (addChild fuel p c t) (some p) lp [c] none none).mpr
    constructor
    · rcases List.eq_nil_or_concat lp with hnil | ⟨L, lc, hL⟩
      · subst hnil
        trivial
      · rw [List.concat_eq_append] at hL
        subst hL
        have hlcval : ((detach fuel c t).nodes p).lastChild = some lc := by
          rw [hlc, lastOr_append]
          rfl
        obtain ⟨hcsL, hcsLc⟩ :=
          (chainSeg_append (detach fuel c t) (some p) L [lc] none none).mp hcs
        obtain ⟨hlcprev, hlcpar, hlcnext, _⟩ := hcsLc
        obtain ⟨hndL, hndlc, hdisjL⟩ := List.nodup_append.mp hnd
        apply (chainSeg_append (addChild fuel p c t) (some p) L [lc] none _).mpr
        constructor
        · apply chainSeg_congr (detach fuel c t) _ (some p) L none _ _ hcsL
          intro y hyl
          have hyc : y ≠ c := fun he => hclp (List.mem_append_left _ (he ▸ hyl))
          have hylc : ((detach fuel c t).nodes p).lastChild ≠ some y := by
            intro h
            rw [hlcval] at h
            injection h with h2
            exact (hdisjL hyl) (h2 ▸ List.mem_cons_self _ _)
          have hprev : ((addChild fuel p c t).nodes y).prev
              = ((detach fuel c t).nodes y).prev := by
            rw [addChild_prev, if_neg hyc]
          have hnext : ((addChild fuel p c t).nodes y).next
              = ((detach fuel c t).nodes y).next := by
            rw [addChild_next _ _ _ _ _ hlcnc, if_neg hyc, if_neg hylc]
          have hpar : ((addChild fuel p c t).nodes y).parent
              = ((detach fuel c t).nodes y).parent := by
            rw [addChild_parent, if_neg hyc]
          simp [chainLinks, hprev, hnext, hpar]
        · have hlcc : lc ≠ c := fun he =>
            hclp (List.mem_append_right _ (he ▸ List.mem_cons_self _ _))
          refine ⟨?_, ?_, ?_, trivial⟩
          · rw [addChild_prev, if_neg hlcc]
            exact hlcprev
          · rw [addChild_parent, if_neg hlcc]
            exact hlcpar
          · rw [addChild_next _ _ _ _ _ hlcnc, if_neg hlcc, if_pos hlcval]
            rfl
    · refine ⟨?_, ?_, ?_, trivial⟩
      · rw [addChild_prev, if_pos rfl]
        exact hlc
      · rw [addChild_parent, if_pos rfl]
      · rw [addChild_next _ _ _ _ _ hlcnc, if_pos rfl]
        rfl
  · intro z hz
    rw [addChild_parent] at hz
    by_cases hzc : z = c
    · subst hzc
      exact List.mem_append_right _ (List.mem_cons_self _ _)
    · rw [if_neg hzc] at hz
      exact List.mem_append_left _ (hclo z hz)

/-- add_child preserves the global tree invariant. -/
theorem treeInv_addChild (fuel p c : Nat) (t : TreeState) (hinv : TreeInv t) :
    TreeInv (addChild fuel p c t) := by
  have hinv0 := treeInv_detach fuel c t hinv
  refine ⟨addChild_conv fuel p c t hinv0, ?_⟩
  intro q
  by_cases hq : q = p
  · subst hq
    exact goodParent_addChild_self fuel q c t hinv0
  · exact goodParent_addChild_other fuel p c t hinv0 q hq

/-- The empty tree satisfies the invariant. -/
theorem treeInv_initTree : TreeInv initTree := by
  refine ⟨fun x y => ?_, fun p => ⟨[], ⟨rfl, rfl, List.nodup_nil, trivial⟩, fun x hx => ?_⟩⟩
  · exact iff_of_false (fun h => by cases h) (fun h => by cases h)
  · cases hx

/-- Every state reachable by a sequence of tree operations from the empty
tree satisfies the invariant. -/
theorem treeInv_applyOps (fuel : Nat) :
    ∀ (ops : List TreeOp) (t : TreeState), TreeInv t → TreeInv (applyOps fuel ops t) := by
  intro ops
  induction ops with
  | nil => intro t h; exact h
  | cons op ops ih =>
    intro t h
    cases op with
    | detach n => exact ih _ (treeInv_detach fuel n t h)
    | insertAfter s x => exact ih _ (treeInv_insertAfter fuel s x t h)
    | addChild p c => exact ih _ (treeInv_addChild fuel p c t h)

/-- C2: after any sequence of add_child / detach / insert_after operations
starting from freshly created detached nodes, every node's sibling chain is
consistent: walking forward from the node's first-child pointer yields a list
`l`, walking backward from its last-child pointer yields exactly `l.reverse`,
every node in `l` has its parent pointer resolving to that node, and
conversely every node whose parent pointer resolves to it is in `l` (a
detached node, whose parent pointer resolves to nothing, is in no chain). -/
theorem tree_chain_consistency (ops : List TreeOp) (fuel : Nat) (p : Nat) :
    ∃ l : List Nat,
      walkNext (applyOps fuel ops initTree) l.length
          ((applyOps fuel ops initTree).nodes p).firstChild = some l
      ∧ walkPrev (applyOps fuel ops initTree) l.length
          ((applyOps fuel ops initTree).nodes p).lastChild = some l.reverse
      ∧ (∀ x ∈ l, ((applyOps fuel ops initTree).nodes x).parent = some p)
      ∧ (∀ x, ((applyOps fuel ops initTree).nodes x).parent = some p → x ∈ l) := by
  have hinv := treeInv_applyOps fuel ops initTree treeInv_initTree
  obtain ⟨l, ⟨hfc, hlc, hnd, hcs⟩, hclo⟩ := hinv.child p
  refine ⟨l, ?_, ?_, ?_, hclo⟩
  · rw [hfc]
    exact walkNext_chainSeg _ _ l none hcs
  · rw [hlc]
    exact walkPrev_chainSeg _ _ l hcs
  · exact fun x hx => chainSeg_parent_of_mem _ _ l none none hcs x hx

/-! Dirty-flag propagation (Element::set_dirty_flags) and the clearing done by
the layout and paint passes. -/

theorem parentWalk_none (t : TreeState) (fuel n : Nat)
    (hp : (t.nodes n).parent = none) : parentWalk t fuel n = some [] := by
  cases fuel with
  | zero => unfold parentWalk; rw [hp]
  | succ f => unfold parentWalk; rw [hp]

theorem parentWalk_zero_some (t : TreeState) (n p : Nat)
    (hp : (t.nodes n).parent = some p) : parentWalk t 0 n = none := by
  unfold parentWalk
  rw [hp]

theorem parentWalk_succ_some (t : TreeState) (fuel n p : Nat)
    (hp : (t.nodes n).parent = some p) :
    parentWalk t (fuel + 1) n = (parentWalk t fuel p).map (p :: ·) := by
  conv_lhs => unfold parentWalk
  rw [hp]

theorem parentWalk_cons (t : TreeState) (n p1 : Nat) (rest : List Nat)
    (h : parentWalk t (rest.length + 1) n = some (p1 :: rest)) :
    (t.nodes n).parent = some p1 ∧ parentWalk t rest.length p1 = some rest := by
  rcases hp : (t.nodes n).parent with _ | q
  · rw [parentWalk_none t _ n hp] at h
    cases h
  · rw [parentWalk_succ_some t _ n q hp] at h
    rcases hw : parentWalk t rest.length q with _ | l
    · rw [hw] at h
      cases h
    · rw [hw] at h
      simp only [Option.map_some', Option.some.injEq, List.cons.injEq] at h
      exact ⟨by rw [h.1], by rw [← h.1, hw, h.2]⟩

theorem parentWalk_congr (t2 t : TreeState)
    (h : ∀ m, (t2.nodes m).parent = (t.nodes m).parent) :
    ∀ fuel n, parentWalk t2 fuel n = parentWalk t fuel n := by
  intro fuel
  induction fuel with
  | zero =>
    intro n
    rcases hp : (t.nodes n).parent with _ | p
    · rw [parentWalk_none t2 0 n ((h n).trans hp), parentWalk_none t 0 n hp]
    · rw [parentWalk_zero_some t2 n p ((h n).trans hp), parentWalk_zero_some t n p hp]
  | succ fuel ih =>
    intro n
    rcases hp : (t.nodes n).parent with _ | p
    · rw [parentWalk_none t2 _ n ((h n).trans hp), parentWalk_none t _ n hp]
    · rw [parentWalk_succ_some t2 fuel n p ((h n).trans hp),
        parentWalk_succ_some t fuel n p hp, ih p]

/-- One step of the set_dirty_flags recursion when the node has a parent. -/
theorem setDirtyFlags_succ_some (fuel : Nat) (t : TreeState) (n p : Nat)
    (layout paint : Bool) (hp : (t.nodes n).parent = some p) :
    ∀ m, (setDirtyFlags (fuel + 1) t n layout paint).nodes m
      = (setDirtyFlags fuel (updNode t n fun e => { e with needsLayout := (t.nodes n).needsLayout || layout, needsPaint := (t.nodes n).needsPaint || paint }) p ((t.nodes n).needsLayout || layout) ((t.nodes n).needsPaint || paint)).nodes m := by
  intro m
  have hpar2 : ((updNode t n fun e => { e with needsLayout := (t.nodes n).needsLayout || layout, needsPaint := (t.nodes n).needsPaint || paint }).nodes n).parent = some p := by
    simp [updNode, hp]
  simp only [setDirtyFlags]
  rw [hpar2]
  split_ifs <;> rfl

/-- Propagation of mark_needs_relayout: the marked node and every strict
ancestor get the LAYOUT flag, and the records of all other nodes are
untouched. -/
theorem setDirtyFlags_mark :
    ∀ (ancs : List Nat) (t : TreeState) (n : Nat) (paint : Bool),
      parentWalk t ancs.length n = some ancs →
      ((setDirtyFlags (ancs.length + 1) t n true paint).nodes n).needsLayout = true
      ∧ (∀ a ∈ ancs, ((setDirtyFlags (ancs.length + 1) t n true paint).nodes a).needsLayout = true)
      ∧ ∀ m, m ≠ n → m ∉ ancs →
          (setDirtyFlags (ancs.length + 1) t n true paint).nodes m = t.nodes m := by
  intro ancs
  induction ancs with
  | nil =>
    intro t n paint _
    simp only [List.length_nil, Nat.zero_add]
    have hres : ∀ m, (setDirtyFlags 1 t n true paint).nodes m
        = (updNode t n fun e => { e with needsLayout := true, needsPaint := (t.nodes n).needsPaint || paint }).nodes m := by
      intro m
      rcases hp : (t.nodes n).parent with _ | q <;>
        rcases hpp : (t.nodes n).needsPaint || paint with _ | _ <;>
          simp [setDirtyFlags, hp, hpp, updNode]
    refine ⟨?_, fun a ha => absurd ha (List.not_mem_nil a), fun m hmn _ => ?_⟩
    · rw [hres n]
      simp [updNode]
    · rw [hres m]
      simp [updNode, hmn]
  | cons p1 rest ih =>
    intro t n paint hpw
    simp only [List.length_cons] at hpw ⊢
    obtain ⟨hp1, hrest⟩ := parentWalk_cons t n p1 rest hpw
    have hres := setDirtyFlags_succ_some (rest.length + 1) t n p1 true paint hp1
    simp only [Bool.or_true] at hres
    generalize ht1 : (updNode t n fun e => { e with needsLayout := true, needsPaint := (t.nodes n).needsPaint || paint }) = t1 at hres
    have ht1par : ∀ m, (t1.nodes m).parent = (t.nodes m).parent := by
      intro m
      rw [← ht1]
      simp only [updNode]
      split <;> rfl
    have hpw1 : parentWalk t1 rest.length p1 = some rest := by
      rw [parentWalk_congr t1 t ht1par]
      exact hrest
    obtain ⟨ihn, ihancs, ihother⟩ := ih t1 p1 ((t.nodes n).needsPaint || paint) hpw1
    refine ⟨?_, ?_, ?_⟩
    · rw [hres n]
      by_cases hn1 : n = p1
      · subst hn1
        exact ihn
      · by_cases hnr : n ∈ rest
        · exact ihancs n hnr
        · rw [ihother n hn1 hnr, ← ht1]
          simp [updNode]
    · intro a ha
      rw [hres a]
      rcases List.mem_cons.mp ha with rfl | ha2
      · exact ihn
      · exact ihancs a ha2
    · intro m hmn hmro
      have hmp1 : m ≠ p1 := fun he => hmro (he ▸ List.mem_cons_self _ _)
      have hmrest : m ∉ rest := fun he => hmro (List.mem_cons_of_mem _ he)
      rw [hres m, ihother m hmp1 hmrest, ← ht1]
      simp [updNode, hmn]

/-- The layout pass never sets the LAYOUT flag on any node. -/
theorem layout_mono :
    ∀ fuel : Nat,
      (∀ (t : TreeState) (n m : Nat),
        ((doLayout fuel t n).nodes m).needsLayout = true → (t.nodes m).needsLayout = true)
      ∧ (∀ (cs : List Nat) (t : TreeState) (aw ah : ℚ) (m : Nat),
        ((layoutFold fuel t cs aw ah).1.nodes m).needsLayout = true
          → (t.nodes m).needsLayout = true) := by
  intro fuel
  induction fuel with
  | zero =>
    have hdo : ∀ (t : TreeState) (n m : Nat),
        ((doLayout 0 t n).nodes m).needsLayout = true → (t.nodes m).needsLayout = true := by
      intro t n m h
      simpa [doLayout] using h
    refine ⟨hdo, ?_⟩
    intro cs
    induction cs with
    | nil =>
      intro t aw ah m h
      simpa [layoutFold] using h
    | cons c rest ihc =>
      intro t aw ah m h
      simp only [layoutFold] at h
      exact hdo t c m (ihc _ _ _ m h)
  | succ fuel ih =>
    have hdo : ∀ (t : TreeState) (n m : Nat),
        ((doLayout (fuel + 1) t n).nodes m).needsLayout = true
          → (t.nodes m).needsLayout = true := by
      intro t n m h
      simp only [doLayout] at h
      by_cases hmn : m = n
      · subst hmn
        simp [markLayoutDone, updNode] at h
      · simp only [markLayoutDone, updNode] at h
        rw [if_neg hmn, if_neg hmn] at h
        exact ih.2 _ t 0 0 m h
    refine ⟨hdo, ?_⟩
    intro cs
    induction cs with
    | nil =>
      intro t aw ah m h
      simpa [layoutFold] using h
    | cons c rest ihc =>
      intro t aw ah m h
      simp only [layoutFold] at h
      exact hdo t c m (ihc _ _ _ m h)

/-- The layout pass clears the LAYOUT flag on every node it visits. -/
theorem layout_clears :
    ∀ fuel : Nat,
      (∀ (t : TreeState) (n x : Nat), x ∈ layoutVisits fuel t n
        → ((doLayout fuel t n).nodes x).needsLayout = false)
      ∧ (∀ (cs : List Nat) (t : TreeState) (aw ah : ℚ) (x : Nat),
        x ∈ layoutVisitsFold fuel t cs
          → ((layoutFold fuel t cs aw ah).1.nodes x).needsLayout = false) := by
  intro fuel
  induction fuel with
  | zero =>
    have hdo : ∀ (t : TreeState) (n x : Nat), x ∈ layoutVisits 0 t n
        → ((doLayout 0 t n).nodes x).needsLayout = false := by
      intro t n x hx
      simp [layoutVisits] at hx
    refine ⟨hdo, ?_⟩
    intro cs
    induction cs with
    | nil =>
      intro t aw ah x hx
      simp [layoutVisitsFold] at hx
    | cons c rest ihc =>
      intro t aw ah x hx
      simp only [layoutVisitsFold, layoutVisits, List.nil_append] at hx
      simp only [layoutFold]
      exact ihc _ _ _ x hx
  | succ fuel ih =>
    have hdo : ∀ (t : TreeState) (n x : Nat), x ∈ layoutVisits (fuel + 1) t n
        → ((doLayout (fuel + 1) t n).nodes x).needsLayout = false := by
      intro t n x hx
      simp only [layoutVisits] at hx
      simp only [doLayout]
      rcases List.mem_cons.mp hx with rfl | hx2
      · simp [markLayoutDone, updNode]
      · by_cases hxn : x = n
        · subst hxn
          simp [markLayoutDone, updNode]
        · simp only [markLayoutDone, updNode]
          rw [if_neg hxn, if_neg hxn]
          exact ih.2 _ t 0 0 x hx2
    refine ⟨hdo, ?_⟩
    intro cs
    induction cs with
    | nil =>
      intro t aw ah x hx
      simp [layoutVisitsFold] at hx
    | cons c rest ihc =>
      intro t aw ah x hx
      simp only [layoutVisitsFold] at hx
      simp only [layoutFold]
      rcases List.mem_append.mp hx with hx1 | hx2
      · have hcleared := hdo t c x hx1
        cases hfin : ((layoutFold (fuel + 1) (doLayout (fuel + 1) t c) rest
            (max aw ((doLayout (fuel + 1) t c).nodes c).gw)
            (max ah ((doLayout (fuel + 1) t c).nodes c).gh)).1.nodes x).needsLayout
        · rfl
        · rw [(layout_mono (fuel + 1)).2 _ _ _ _ x hfin] at hcleared
          cases hcleared
      · exact ihc _ _ _ x hx2

/-- The layout pass leaves the records of the nodes it does not visit
untouched. -/
theorem layout_untouched :
    ∀ fuel : Nat,
      (∀ (t : TreeState) (n m : Nat), m ∉ layoutVisits fuel t n
        → (doLayout fuel t n).nodes m = t.nodes m)
      ∧ (∀ (cs : List Nat) (t : TreeState) (aw ah : ℚ) (m : Nat),
        m ∉ layoutVisitsFold fuel t cs
          → (layoutFold fuel t cs aw ah).1.nodes m = t.nodes m) := by
  intro fuel
  induction fuel with
  | zero =>
    have hdo : ∀ (t : TreeState) (n m : Nat), m ∉ layoutVisits 0 t n
        → (doLayout 0 t n).nodes m = t.nodes m := by
      intro t n m _
      simp [doLayout]
    refine ⟨hdo, ?_⟩
    intro cs
    induction cs with
    | nil =>
      intro t aw ah m _
      simp [layoutFold]
    | cons c rest ihc =>
      intro t aw ah m hm
      simp only [layoutVisitsFold, layoutVisits, List.nil_append] at hm
      simp only [layoutFold]
      rw [ihc _ _ _ m hm]
      exact hdo t c m (by simp [layoutVisits])
  | succ fuel ih =>
    have hdo : ∀ (t : TreeState) (n m : Nat), m ∉ layoutVisits (fuel + 1) t n
        → (doLayout (fuel + 1) t n).nodes m = t.nodes m := by
      intro t n m hm
      simp only [layoutVisits, List.mem_cons] at hm
      push_neg at hm
      simp only [doLayout, markLayoutDone, updNode]
      rw [if_neg hm.1, if_neg hm.1]
      exact ih.2 _ t 0 0 m hm.2
    refine ⟨hdo, ?_⟩
    intro cs
    induction cs with
    | nil =>
      intro t aw ah m _
      simp [layoutFold]
    | cons c rest ihc =>
      intro t aw ah m hm
      simp only [layoutVisitsFold, List.mem_append] at hm
      push_neg at hm
      simp only [layoutFold]
      rw [ihc _ _ _ m hm.2]
      exact hdo t c m hm.1

/-- The paint child loop never sets the PAINT flag on any node. -/
theorem paint_mono :
    ∀ (fuel : Nat) (oc : Option Nat) (t : TreeState) (m : Nat),
      ((paintChildren fuel t oc).nodes m).needsPaint = true
        → (t.nodes m).needsPaint = true := by
  intro fuel
  induction fuel with
  | zero =>
    intro oc t m h
    cases oc <;> simpa [paintChildren] using h
  | succ fuel ih =>
    intro oc t m h
    cases oc with
    | none => simpa [paintChildren] using h
    | some c =>
      simp only [paintChildren] at h
      have h2 := ih _ _ m h
      by_cases hmc : m = c
      · subst hmc
        simp [markPaintDone, updNode] at h2
      · simp only [markPaintDone, updNode] at h2
        rw [if_neg hmc] at h2
        exact ih _ _ m h2

/-- The paint child loop clears the PAINT flag on every node it marks
paint-done. -/
theorem paint_clears :
    ∀ (fuel : Nat) (oc : Option Nat) (t : TreeState) (x : Nat),
      x ∈ paintVisits fuel t oc
        → ((paintChildren fuel t oc).nodes x).needsPaint = false := by
  intro fuel
  induction fuel with
  | zero =>
    intro oc t x hx
    cases oc <;> simp [paintVisits] at hx
  | succ fuel ih =>
    intro oc t x hx
    cases oc with
    | none => simp [paintVisits] at hx
    | some c =>
      simp only [paintVisits, List.mem_append, List.mem_cons] at hx
      simp only [paintChildren]
      rcases hx with (hx1 | hx1) | hx2
      · have hcl := ih _ _ x hx1
        have hcl2 : ((markPaintDone (paintChildren fuel t (t.nodes c).firstChild) c).nodes x).needsPaint = false := by
          by_cases hxc : x = c
          · subst hxc
            simp [markPaintDone, updNode]
          · simp only [markPaintDone, updNode]
            rw [if_neg hxc]
            exact hcl
        cases hfin : ((paintChildren fuel
            (markPaintDone (paintChildren fuel t (t.nodes c).firstChild) c)
            (t.nodes c).next).nodes x).needsPaint
        · rfl
        · rw [paint_mono fuel _ _ x hfin] at hcl2
          cases hcl2
      · rcases hx1 with rfl | hx1
        · have hcl2 : ((markPaintDone (paintChildren fuel t (t.nodes x).firstChild) x).nodes x).needsPaint = false := by
            simp [markPaintDone, updNode]
          cases hfin : ((paintChildren fuel
              (markPaintDone (paintChildren fuel t (t.nodes x).firstChild) x)
              (t.nodes x).next).nodes x).needsPaint
          · rfl
          · rw [paint_mono fuel _ _ x hfin] at hcl2
            cases hcl2
        · cases hx1
      · exact ih _ _ x hx2

/-- The paint child loop leaves the records of the nodes it does not mark
paint-done untouched; in particular the node the pass was started on. -/
theorem paint_untouched :
    ∀ (fuel : Nat) (oc : Option Nat) (t : TreeState) (m : Nat),
      m ∉ paintVisits fuel t oc → (paintChildren fuel t oc).nodes m = t.nodes m := by
  intro fuel
  induction fuel with
  | zero =>
    intro oc t m _
    cases oc <;> rfl
  | succ fuel ih =>
    intro oc t m hm
    cases oc with
    | none => rfl
    | some c =>
      simp only [paintVisits, List.mem_append, List.mem_cons] at hm
      push_neg at hm
      simp only [paintChildren]
      rw [ih _ _ m hm.2]
      have hmc : m ≠ c := hm.1.2.1
      simp only [markPaintDone, updNode]
      rw [if_neg hmc]
      exact ih _ _ m hm.1.1

/-- C7: marking a node needs-layout sets the LAYOUT flag on it and on every
strict ancestor while leaving every other node's record untouched (so
siblings never become dirty); a layout pass clears the LAYOUT flag on exactly
the nodes it visits; but a paint pass calls mark-paint-done only on the
children it descends into, never on the node the pass was started on, whose
record it leaves untouched — so the spec's claim that no node visited by a
completed pass still reports the corresponding flag fails for the paint
pass's root (see the counterexample). -/
theorem dirty_flag_discipline (fuel : Nat) (t : TreeState) (n : Nat) (ancs : List Nat)
    (hanc : parentWalk t ancs.length n = some ancs) :
    (((markNeedsRelayout (ancs.length + 1) t n).nodes n).needsLayout = true
      ∧ (∀ a ∈ ancs, ((markNeedsRelayout (ancs.length + 1) t n).nodes a).needsLayout = true)
      ∧ ∀ m, m ≠ n → m ∉ ancs → (markNeedsRelayout (ancs.length + 1) t n).nodes m = t.nodes m)
    ∧ (∀ x ∈ layoutVisits fuel t n, ((doLayout fuel t n).nodes x).needsLayout = false)
    ∧ (∀ m, m ∉ layoutVisits fuel t n → (doLayout fuel t n).nodes m = t.nodes m)
    ∧ (∀ x ∈ paintVisits fuel t (t.nodes n).firstChild,
        ((doPaint fuel t n).nodes x).needsPaint = false)
    ∧ (∀ m, m ∉ paintVisits fuel t (t.nodes n).firstChild →
        (doPaint fuel t n).nodes m = t.nodes m) := by
  refine ⟨setDirtyFlags_mark ancs t n true hanc, (layout_clears fuel).1 t n,
    (layout_untouched fuel).1 t n, ?_, ?_⟩
  · intro x hx
    exact paint_clears fuel _ t x hx
  · intro m hm
    exact paint_untouched fuel _ t m hm

theorem dirty_flag_discipline_witness :
    parentWalk exC7Tree 2 2 = some [1, 0]
    ∧ ((((markNeedsRelayout 3 exC7Tree 2).nodes 2).needsLayout = true
        ∧ (∀ a ∈ [1, 0], ((markNeedsRelayout 3 exC7Tree 2).nodes a).needsLayout = true)
        ∧ ∀ m, m ≠ 2 → m ∉ [1, 0] → (markNeedsRelayout 3 exC7Tree 2).nodes m = exC7Tree.nodes m)
      ∧ (∀ x ∈ layoutVisits 4 exC7Tree 2, ((doLayout 4 exC7Tree 2).nodes x).needsLayout = false)
      ∧ (∀ m, m ∉ layoutVisits 4 exC7Tree 2 → (doLayout 4 exC7Tree 2).nodes m = exC7Tree.nodes m)
      ∧ (∀ x ∈ paintVisits 4 exC7Tree (exC7Tree.nodes 2).firstChild,
          ((doPaint 4 exC7Tree 2).nodes x).needsPaint = false)
      ∧ (∀ m, m ∉ paintVisits 4 exC7Tree (exC7Tree.nodes 2).firstChild →
          (doPaint 4 exC7Tree 2).nodes m = exC7Tree.nodes m)) :=
  ⟨by decide, dirty_flag_discipline 4 exC7Tree 2 [1, 0] (by decide)⟩

/-- Counterexample to the claim that no node visited by a completed pass
still reports the corresponding dirty flag: a paint pass started on node 0
of the chain 0 → 1 → 2 (all flags set) paints node 0 and clears its
descendants 1 and 2, but node 0 still reports needs-paint afterwards. -/
theorem paint_pass_counterexample :
    (exC7Tree.nodes 0).needsPaint = true
    ∧ ((doPaint 4 exC7Tree 0).nodes 1).needsPaint = false
    ∧ ((doPaint 4 exC7Tree 0).nodes 2).needsPaint = false
    ∧ ((doPaint 4 exC7Tree 0).nodes 0).needsPaint = true := by
  refine ⟨?_, ?_, ?_, ?_⟩ <;> decide

/-! Hit testing (claim C8): the source recursion hands a child the inverse of
the ACCUMULATED root-to-child transform applied to the parent-local point,
while the spec sentence describes the child's own inverse transform.  The two
recursions agree whenever every transform in the tree is the identity. -/

theorem aff_id_mul_id : Aff.id.mul Aff.id = Aff.id := by
  norm_num [Aff.mul, Aff.id]

theorem allId_transform (v : VNode) (h : VNode.allId v = true) :
    v.transform = Aff.id ∧ VNode.allIdList v.children = true := by
  cases v with
  | node i tr w h2 cs =>
    simp only [VNode.allId, Bool.and_eq_true, decide_eq_true_eq] at h
    exact ⟨h.1, h.2⟩

mutual

theorem hitTestRec_spec (v : VNode) :
    ∀ (p : ℚ × ℚ) (res : List Nat), VNode.allId v = true →
      hitTestRec v p Aff.id res = specHitRec v p res := by
  cases v with
  | node i tr w h cs =>
    intro p res hid
    simp only [VNode.allId, Bool.and_eq_true, decide_eq_true_eq] at hid
    simp only [hitTestRec, specHitRec]
    exact hitTestChildren_spec cs p _ _ hid.2

theorem hitTestChildren_spec (cs : List VNode) :
    ∀ (p : ℚ × ℚ) (hit : Bool) (res : List Nat), VNode.allIdList cs = true →
      hitTestChildren cs p Aff.id hit res = specHitChildren cs p hit res := by
  cases cs with
  | nil =>
    intro p hit res _
    rfl
  | cons c rest =>
    intro p hit res hid
    simp only [VNode.allIdList, Bool.and_eq_true] at hid
    have hct := (allId_transform c hid.1).1
    simp only [hitTestChildren, specHitChildren]
    rw [hct, aff_id_mul_id]
    rw [hitTestRec_spec c _ _ hid.1]
    split_ifs with h1
    · rfl
    · exact hitTestChildren_spec rest p hit _ hid.2

end

/-- C8: the source hit-test hands each child the inverse of the accumulated
root-to-child transform (transform parameter times the child's transform)
applied to the parent-local point, not the child's own inverse transform
alone as the spec words it; the two recursions coincide whenever every
transform in the tree is the identity, and in particular the spec's example
of three nested identity-placed nodes A ⊃ B ⊃ C yields [A, B, C] at a point
inside all three and [A, B] after removing C.  With a non-identity transform
on an intermediate node they differ (see the counterexample). -/
theorem hit_test_accumulated :
    (∀ (v : VNode) (p : ℚ × ℚ), VNode.allId v = true → doHitTest v p = specHitTest v p)
    ∧ doHitTest exTreeABC (5, 5) = [10, 11, 12]
    ∧ doHitTest exTreeAB (5, 5) = [10, 11] := by
  refine ⟨?_, ?_, ?_⟩
  · intro v p hid
    have h1 := (allId_transform v hid).1
    unfold doHitTest specHitTest
    rw [h1, hitTestRec_spec v p [] hid]
  · norm_num [doHitTest, hitTestRec, hitTestChildren, VNode.ownHit, VNode.transform,
      Aff.mul, Aff.inv, Aff.apply, Aff.id, exTreeABC]
  · norm_num [doHitTest, hitTestRec, hitTestChildren, VNode.ownHit, VNode.transform,
      Aff.mul, Aff.inv, Aff.apply, Aff.id, exTreeAB]

/-- Counterexample to the per-child-inverse reading of the hit-test: with
root 5 (identity), child 6 translated by (10, 0) and grandchild 7 (identity),
the source algorithm inverts the accumulated transform a second time for the
grandchild and misses it, while the spec recursion reports it hit. -/
theorem hit_test_counterexample :
    doHitTest exTreeDeep (12, 3) = [5, 6]
    ∧ specHitTest exTreeDeep (12, 3) = [5, 6, 7] := by
  constructor
  · norm_num [doHitTest, hitTestRec, hitTestChildren, VNode.ownHit, VNode.transform,
      Aff.mul, Aff.inv, Aff.apply, Aff.id, Aff.translate, exTreeDeep]
  · norm_num [specHitTest, specHitRec, specHitChildren, VNode.ownHit, VNode.transform,
      Aff.mul, Aff.inv, Aff.apply, Aff.id, Aff.translate, exTreeDeep]

theorem hit_test_accumulated_witness :
    VNode.allId exTreeABC = true
    ∧ doHitTest exTreeABC (5, 5) = specHitTest exTreeABC (5, 5) :=
  ⟨by decide, hit_test_accumulated.1 exTreeABC (5, 5) (by decide)⟩

/-! The dispatcher (claims C3, C4, C5). -/

mutual

theorem pathTo_none_of_not_contains (v : VNode) :
    ∀ i, VNode.contains v i = false → VNode.pathTo v i = none := by
  cases v with
  | node j tr w h cs =>
    intro i hc
    simp only [VNode.contains, Bool.or_eq_false_iff, beq_eq_false_iff_ne, ne_eq] at hc
    simp only [VNode.pathTo, if_neg hc.1]
    rw [pathToList_none_of_not_contains cs i hc.2]
    rfl

theorem pathToList_none_of_not_contains (cs : List VNode) :
    ∀ i, VNode.containsList cs i = false → VNode.pathToList cs i = none := by
  cases cs with
  | nil =>
    intro i _
    rfl
  | cons c rest =>
    intro i hc
    simp only [VNode.containsList, Bool.or_eq_false_iff] at hc
    simp only [VNode.pathToList]
    rw [pathTo_none_of_not_contains c i hc.1, pathToList_none_of_not_contains rest i hc.2]

end

/-- C3: when a bubbling delivery's target is no longer in the window root's
tree, dispatch_event does NOT silently drop the delivery: the dispatch chain
(ancestors_and_self of the target) then fails to start at the window root and
the source's assert fires, i.e. the dispatcher panics (modelled as the error
outcome). -/
theorem dispatch_removed_target_panics (root : VNode) (target : Nat) (bubbling : Bool)
    (h : VNode.contains root target = false) :
    dispatchEvent root target bubbling
      = .error "target must be a descendant of the root visual" := by
  unfold dispatchEvent
  rw [pathTo_none_of_not_contains root target h]

/-- Counterexample to the silent-drop claim: node 12 has been removed from
the tree (the A ⊃ B tree no longer contains it), and dispatching to it
produces the assert failure, not a silent no-op success. -/
theorem dispatch_removed_target_counterexample :
    dispatchEvent exTreeAB 12 true = .error "target must be a descendant of the root visual"
    ∧ ∀ calls, dispatchEvent exTreeAB 12 true ≠ .ok calls := by
  have h1 : dispatchEvent exTreeAB 12 true
      = .error "target must be a descendant of the root visual" := by
    simp [dispatchEvent, VNode.pathTo, VNode.pathToList, exTreeAB]
  refine ⟨h1, fun calls hok => ?_⟩
  rw [h1] at hok
  cases hok

theorem dispatch_removed_target_panics_witness :
    VNode.contains exTreeAB 12 = false
    ∧ dispatchEvent exTreeAB 12 true
        = .error "target must be a descendant of the root visual" :=
  ⟨by simp [VNode.contains, VNode.containsList, exTreeAB],
   dispatch_removed_target_panics exTreeAB 12 true
     (by simp [VNode.contains, VNode.containsList, exTreeAB])⟩

/-- C4: a keyboard input event is NOT delivered to the focused node (or to
any node): the dispatcher's keyboard arm only stores the event in the debug
slot and requests a redraw; the focus reference in the input state is never
consulted and the list of dispatch calls is empty. -/
theorem keyboard_no_delivery (w : WindowState) (now dct key : Nat) :
    dispatchWinitInputEvent w now dct (.keyboardInput key)
      = .ok ({ w with lastKbEvent := some key, redrawRequested := true }, []) := rfl

/-- Counterexample to the focus-delivery claim: a window whose input state
holds focus on node 5 receives a keyboard event; the dispatch produces no
call at all (in particular none to node 5), and only the debug slot and the
redraw flag change. -/
theorem keyboard_counterexample :
    exWindow.inputState.focus = some 5
    ∧ dispatchWinitInputEvent exWindow 0 0 (.keyboardInput 42)
        = .ok ({ exWindow with lastKbEvent := some 42, redrawRequested := true }, []) :=
  ⟨rfl, rfl⟩

/-! Scheduler timers (claim C9). -/

theorem fireTimers_sound (now : Nat) :
    ∀ l : List MTimer, ∀ w ∈ (fireTimers now l).2,
      ∃ tm ∈ l, tm.waker = w ∧ tm.deadline ≤ now := by
  intro l
  induction l with
  | nil =>
    intro w hw
    simp [fireTimers] at hw
  | cons tm rest ih =>
    intro w hw
    simp only [fireTimers] at hw
    by_cases h : tm.deadline ≤ now
    · rw [if_pos h] at hw
      rcases List.mem_cons.mp hw with rfl | hw2
      · exact ⟨tm, List.mem_cons_self _ _, rfl, h⟩
      · obtain ⟨tm2, hmem, hwk, hdl⟩ := ih w hw2
        exact ⟨tm2, List.mem_cons_of_mem _ hmem, hwk, hdl⟩
    · rw [if_neg h] at hw
      cases hw

theorem fireTimers_fires (now : Nat) :
    ∀ l : List MTimer, List.Pairwise (fun a b => a.deadline ≤ b.deadline) l →
      ∀ tm ∈ l, tm.deadline ≤ now → tm.waker ∈ (fireTimers now l).2 := by
  intro l
  induction l with
  | nil =>
    intro _ tm h
    cases h
  | cons hd rest ih =>
    intro hp tm hmem hdl
    obtain ⟨hhd, hrest⟩ := List.pairwise_cons.mp hp
    simp only [fireTimers]
    rcases List.mem_cons.mp hmem with rfl | hmem2
    · rw [if_pos hdl]
      exact List.mem_cons_self _ _
    · have hhdle : hd.deadline ≤ now := le_trans (hhd tm hmem2) hdl
      rw [if_pos hhdle]
      exact List.mem_cons_of_mem _ (ih hrest tm hmem2 hdl)

theorem sortTimers_sorted (l : List MTimer) :
    List.Pairwise (fun a b : MTimer => a.deadline ≤ b.deadline) (sortTimers l) := by
  unfold sortTimers
  have h : (List.mergeSort l (fun a b : MTimer => decide (a.deadline ≤ b.deadline))).Pairwise
      (fun a b : MTimer => decide (a.deadline ≤ b.deadline) = true) :=
    List.sorted_mergeSort
      (fun a b c h1 h2 => by
        simp only [decide_eq_true_eq] at h1 h2 ⊢
        omega)
      (fun a b => by
        simp only [Bool.or_eq_true, decide_eq_true_eq]
        omega) l
  exact h.imp (fun hab => by simpa using hab)

/-- C9: a task awaiting wait_until with deadline T is woken at the first
event-loop wakeup whose wall-clock time is at least T (its timer, pending in
the sorted list, fires at such a wakeup and its subsequent poll returns
ready), and it never completes earlier: before T every poll returns pending,
and every waker fired by the timer loop belongs to a timer whose deadline has
passed. -/
theorem timer_first_wakeup :
    (∀ (now deadline : Nat) (registered : Bool) (timers : List MTimer) (waker : Nat),
      now < deadline → (waitUntilPoll now deadline registered timers waker).1 = .pending)
    ∧ (∀ (now deadline : Nat) (registered : Bool) (timers : List MTimer) (waker : Nat),
      deadline ≤ now → (waitUntilPoll now deadline registered timers waker).1 = .ready)
    ∧ (∀ (now : Nat) (l : List MTimer) (tm : MTimer), tm ∈ l → tm.deadline ≤ now →
      tm.waker ∈ (fireTimers now (sortTimers l)).2)
    ∧ (∀ (now : Nat) (l : List MTimer), ∀ w ∈ (fireTimers now l).2,
      ∃ tm ∈ l, tm.waker = w ∧ tm.deadline ≤ now) := by
  refine ⟨?_, ?_, ?_, fireTimers_sound⟩
  · intro now deadline registered timers waker hlt
    unfold waitUntilPoll
    rw [if_neg (by omega)]
    split_ifs <;> rfl
  · intro now deadline registered timers waker hle
    unfold waitUntilPoll
    rw [if_pos hle]
  · intro now l tm hmem hdl
    exact fireTimers_fires now (sortTimers l) (sortTimers_sorted l) tm
      (by unfold sortTimers; exact List.mem_mergeSort.mpr hmem) hdl

theorem timer_first_wakeup_witness :
    (4 < 5 ∧ (waitUntilPoll 4 5 false [] 7).1 = .pending)
    ∧ (5 ≤ 6 ∧ (waitUntilPoll 6 5 true [] 7).1 = .ready)
    ∧ (MTimer.mk 7 5 ∈ [MTimer.mk 9 8, MTimer.mk 7 5] ∧ 5 ≤ 6
        ∧ 7 ∈ (fireTimers 6 (sortTimers [MTimer.mk 9 8, MTimer.mk 7 5])).2) :=
  ⟨⟨by decide, timer_first_wakeup.1 4 5 false [] 7 (by decide)⟩,
   ⟨by decide, timer_first_wakeup.2.1 6 5 true [] 7 (by decide)⟩,
   ⟨by decide, by decide,
    timer_first_wakeup.2.2.1 6 [MTimer.mk 9 8, MTimer.mk 7 5] (MTimer.mk 7 5)
      (by decide) (by decide)⟩⟩

/-- C5: moving the pointer from the point (5, 5), whose hit path in the
Root/Container/Leaf1/Leaf2 tree is [0, 1, 2], to the point (25, 5), whose hit
path is [0, 1, 3], makes the dispatcher emit exactly one non-bubbling
PointerLeave to Leaf1 (2), exactly one non-bubbling PointerEnter to Leaf2
(3), exactly one bubbled PointerOut to Leaf1 and exactly one bubbled
PointerOver to Leaf2, while Root (0) and Container (1) — hit both before and
after — are the target of none of these four events. -/
theorem pointer_transition_events :
    ∃ calls1 calls2 : List DispatchCall,
      doHitTest exTreeC5 (5, 5) = [0, 1, 2]
      ∧ doHitTest exTreeC5 (25, 5) = [0, 1, 3]
      ∧ dispatchPointerEvent exIst0 exTreeC5 .pointerMove (5, 5) = .ok (exIst1, calls1)
      ∧ dispatchPointerEvent exIst1 exTreeC5 .pointerMove (25, 5)
          = .ok ({ exIst1 with lastInnermostHit := some 3, lastHits := [0, 1, 3] }, calls2)
      ∧ calls2.count ⟨.pointerLeave, 2, false⟩ = 1
      ∧ calls2.count ⟨.pointerEnter, 3, false⟩ = 1
      ∧ calls2.count ⟨.pointerOut, 2, true⟩ = 1
      ∧ calls2.count ⟨.pointerOver, 3, true⟩ = 1
      ∧ calls2.filter (fun c =>
          (decide (c.kind = .pointerLeave) || decide (c.kind = .pointerEnter)
            || decide (c.kind = .pointerOut) || decide (c.kind = .pointerOver))
          && (decide (c.target = 0) || decide (c.target = 1))) = [] := by
  refine ⟨[⟨.pointerMove, 2, true⟩, ⟨.pointerOver, 2, true⟩, ⟨.pointerEnter, 0, false⟩,
           ⟨.pointerEnter, 1, false⟩, ⟨.pointerEnter, 2, false⟩],
          [⟨.pointerMove, 3, true⟩, ⟨.pointerOut, 2, true⟩, ⟨.pointerLeave, 2, false⟩,
           ⟨.pointerOver, 3, true⟩, ⟨.pointerEnter, 3, false⟩],
          ?_, ?_, ?_, ?_, ?_, ?_, ?_, ?_, ?_⟩
  · norm_num [doHitTest, hitTestRec, hitTestChildren, VNode.ownHit, VNode.transform,
      Aff.mul, Aff.inv, Aff.apply, Aff.id, Aff.translate, exTreeC5]
  · norm_num [doHitTest, hitTestRec, hitTestChildren, VNode.ownHit, VNode.transform,
      Aff.mul, Aff.inv, Aff.apply, Aff.id, Aff.translate, exTreeC5]
  · have hd1 : (decide ((none : Option Nat) = some 2)) = false := rfl
    norm_num [dispatchPointerEvent, dispatchEvent, doHitTest, hitTestRec, hitTestChildren,
      VNode.ownHit, VNode.transform, Aff.mul, Aff.inv, Aff.apply, Aff.id, Aff.translate,
      VNode.pathTo, VNode.pathToList, toSet, setInsert, setDiff, exTreeC5, exIst0, exIst1,
      Bind.bind, Except.bind, pure, Except.pure, Option.or, List.mapM, List.mapM.loop,
      List.getLast?, List.filter, hd1]
  · have hd2 : (decide ((some 2 : Option Nat) = some 3)) = false := rfl
    norm_num [dispatchPointerEvent, dispatchEvent, doHitTest, hitTestRec, hitTestChildren,
      VNode.ownHit, VNode.transform, Aff.mul, Aff.inv, Aff.apply, Aff.id, Aff.translate,
      VNode.pathTo, VNode.pathToList, toSet, setInsert, setDiff, exTreeC5, exIst0, exIst1,
      Bind.bind, Except.bind, pure, Except.pure, Option.or, List.mapM, List.mapM.loop,
      List.getLast?, List.filter, hd2]
  · decide
  · decide
  · decide
  · decide
  · decide

end KyuteAsync
